import Mathlib

/-!
# A verification development for the `runestream` package

This file gives a shallow embedding, in Lean, of the Go package
`go-runestream`: a buffered, backtrackable rune decoder consisting of

* `Position` (src/position.go): a line/column/offset tracker;
* the `Decoder` capability and its default UTF-8 implementation
  (src/decoder.go, porting the standard `unicode/utf8` algorithms used
  by `UTF8Decoder`);
* `RuneStream` (stream source file): the buffered load engine, the
  speculative cursor (`Advance`), the Save/Restore/Rewind/Commit
  protocol, and the `TakeWhile` combinator.

Modelling conventions:

* Go machine integers are modelled as `Nat`/`Int`.  `uint64` fields of
  `Position` and the `uint` fields `gen`/`spec` are modelled as `Nat`:
  they only ever grow by small increments and the program's reachable
  values stay astronomically far from 2^64, so wrap-around never
  matters on the claims below.  `rune` (`int32`) and the `int` sizes
  are modelled as `Int`.
* Go byte slices are `List Nat` (each entry a byte value `< 256`).
* The `io.Reader` source is modelled as a deterministic list of read
  results: each `Read` call consumes the next entry (truncated to the
  requested capacity, as any conforming reader returns at most that
  many bytes) and yields its bytes together with an optional error
  value.  Error values are bare `Nat` identifiers (`none` = Go `nil`);
  only identity matters, matching the package's error-exposure contract.
* Go panics are modelled as `none` in an `Option` result (fatal usage
  errors: invalid construction, stale save point, log-ceiling overflow,
  indexing past the log when a load produced nothing).
-/

/-- Position represents a position within a text file (src/position.go). -/
structure Position where
  Offset : Nat
  Line : Nat
  Column : Nat
  SkipNextLF : Bool
deriving DecidableEq, Repr

/-- MakePosition returns the Position for the start of a text file. -/
def MakePosition : Position := { Offset := 0, Line := 1, Column := 1, SkipNextLF := false }

/-- The total core of `Position.Advance`, for a non-negative byte count.
Mirrors the Go body after the `size < 0` panic guard: a no-op for
`size == 0`, otherwise `Offset += size` followed by the character
dispatch on `'\r'` (13), `'\n'` (10), `'\t'` (9). -/
def Position.adv (pos : Position) (ch : Int) (size : Nat) : Position :=
  if size = 0 then pos
  else
    let p1 : Position := { pos with Offset := pos.Offset + size }
    if ch = 13 then
      { p1 with Line := p1.Line + 1, Column := 1, SkipNextLF := true }
    else if ch = 10 ∧ p1.SkipNextLF then
      { p1 with SkipNextLF := false }
    else if ch = 10 then
      { p1 with Line := p1.Line + 1, Column := 1 }
    else if ch = 9 then
      { p1 with Column := p1.Column + (8 - ((p1.Column - 1) % 8)), SkipNextLF := false }
    else
      { p1 with Column := p1.Column + 1, SkipNextLF := false }

/-- Position.Advance updates the position given the character at the
current position and its encoded byte count.  A negative size is a
panic (`none`). -/
def Position.Advance (pos : Position) (ch : Int) (size : Int) : Option Position :=
  if size < 0 then none else some (pos.adv ch size.toNat)

/-! ## The Decoder capability and the default UTF-8 decoder

`Decoder` (src/decoder.go) is an interface of pure operations; here it
is a structure of functions.  `UTF8Decoder` ports the standard
`unicode/utf8` algorithms `FullRune` and `DecodeRune` that the Go
implementation delegates to. -/

/-- Decoder is the capability for alternative charset decoders:
`Name`, `Max` (maximum bytes per rune), `FullRune`, `DecodeRune`. -/
structure Decoder where
  Name : String
  Max : Int
  FullRune : List Nat → Bool
  DecodeRune : List Nat → Int × Int

/-- The Unicode replacement character U+FFFD returned by the UTF-8
decoder for invalid encodings (`utf8.RuneError`). -/
def utf8RuneError : Int := 0xFFFD

/-- The `unicode/utf8` first-byte table `first[b]`: packs the encoded
size of a sequence starting with byte `b` in the low 3 bits and the
accept-range index in the high 4 bits.  `0xF0` marks ASCII, `0xF1`
marks an invalid first byte. -/
def utf8SizeCode (b : Nat) : Nat :=
  if b ≤ 0x7F then 0xF0
  else if b ≤ 0xC1 then 0xF1
  else if b ≤ 0xDF then 0x02
  else if b = 0xE0 then 0x13
  else if b ≤ 0xEC then 0x03
  else if b = 0xED then 0x23
  else if b ≤ 0xEF then 0x03
  else if b = 0xF0 then 0x34
  else if b ≤ 0xF3 then 0x04
  else if b = 0xF4 then 0x44
  else 0xF1

/-- Lower bound of the `acceptRanges` entry with the given index. -/
def utf8AcceptLo (i : Nat) : Nat :=
  if i = 1 then 0xA0 else if i = 3 then 0x90 else 0x80

/-- Upper bound of the `acceptRanges` entry with the given index. -/
def utf8AcceptHi (i : Nat) : Nat :=
  if i = 2 then 0x9F else if i = 4 then 0x8F else 0xBF

/-- Port of `utf8.FullRune`: `p` contains all the bytes needed to
decode its first rune (an invalid encoding counts as a full rune since
it decodes as a width-1 error rune). -/
def utf8FullRune (p : List Nat) : Bool :=
  match p with
  | [] => false
  | b0 :: rest =>
    let x := utf8SizeCode b0
    if x % 8 ≤ p.length then true
    else
      match rest with
      | [] => false
      | b1 :: _ =>
        decide (b1 < utf8AcceptLo (x / 16)) || decide (utf8AcceptHi (x / 16) < b1)

/-- Port of `utf8.DecodeRune`: the first rune in `p` and the number of
bytes consumed.  The Go mask-and-or trick for the `x >= as` case is
written as a plain conditional with the same value: ASCII yields the
byte, an invalid first byte yields `RuneError`, both with size 1. -/
def utf8DecodeRune (p : List Nat) : Int × Int :=
  match p with
  | [] => (utf8RuneError, 0)
  | b0 :: rest =>
    let x := utf8SizeCode b0
    if 0xF0 ≤ x then
      (if x = 0xF0 then (b0 : Int) else utf8RuneError, 1)
    else
      let sz := x % 8
      if p.length < sz then (utf8RuneError, 1)
      else
        match rest with
        | [] => (utf8RuneError, 1)
        | b1 :: rest2 =>
          if b1 < utf8AcceptLo (x / 16) ∨ utf8AcceptHi (x / 16) < b1 then (utf8RuneError, 1)
          else if sz = 2 then ((((b0 % 32) * 64 + b1 % 64 : Nat) : Int), 2)
          else
            match rest2 with
            | [] => (utf8RuneError, 1)
            | b2 :: rest3 =>
              if b2 < 0x80 ∨ 0xBF < b2 then (utf8RuneError, 1)
              else if sz = 3 then
                ((((b0 % 16) * 4096 + (b1 % 64) * 64 + b2 % 64 : Nat) : Int), 3)
              else
                match rest3 with
                | [] => (utf8RuneError, 1)
                | b3 :: _ =>
                  if b3 < 0x80 ∨ 0xBF < b3 then (utf8RuneError, 1)
                  else
                    ((((b0 % 8) * 262144 + (b1 % 64) * 4096 + (b2 % 64) * 64 + b3 % 64 : Nat) : Int), 4)

/-- UTF8Decoder implements Decoder for UTF-8 (`Max = utf8.UTFMax = 4`). -/
def UTF8Decoder : Decoder :=
  { Name := "utf-8", Max := 4, FullRune := utf8FullRune, DecodeRune := utf8DecodeRune }

/-! ## The stream -/

/-- One result of a `Read` call on the underlying byte source: the
bytes produced and the (optional) error returned alongside them. -/
structure ReadResult where
  bytes : List Nat
  err : Option Nat
deriving DecidableEq, Repr

/-- savedRune represents a single Unicode character read from the byte
stream (or, when `err` is set, the terminal error marker).  Terminal
entries carry the Go zero values `value = 0`, `size = 0`. -/
structure savedRune where
  pos : Position
  value : Int
  size : Int
  err : Option Nat
deriving DecidableEq, Repr

/-- SavePoint is a snapshot of a stream position. -/
structure SavePoint where
  gen : Nat
  spec : Nat
deriving DecidableEq, Repr

/-- RuneStream is the engine for lexing runes from a byte stream.

Field-by-field correspondence with the Go struct: `r` is the
io.Reader, modelled as the list of remaining read results; `d` the
decoder; `bs` the block size; `b` the leftover bytes read but not yet
decoded; `pos` the position of the next rune to be decoded; `buf` the
log of saved runes; `curr` the saved rune the caller is working on
(Go: a pointer into `buf`, here a copy of the value, which is faithful
because log entries are never mutated after being appended); `gen` the
generation number; `spec` the speculative read index into `buf`.

The Go struct's reusable backing array `bb` is a capacity-only
optimization with no observable effect on values (for any decoder
within its contract the leftover tail always fits its slack region),
so it has no counterpart here. -/
structure RuneStream where
  r : List ReadResult
  d : Decoder
  bs : Nat
  b : List Nat
  pos : Position
  buf : List savedRune
  curr : Option savedRune
  gen : Nat
  spec : Nat

/-- Options holds the configurable parameters of a stream:
`BlockSize` (0 = default 4096) and the decoder (`none` = default). -/
structure Options where
  BlockSize : Int
  OptDecoder : Option Decoder

/-- The load-engine part of a stream state: exactly the fields that a
`load` call reads and writes (reader, pending bytes, position, log).
`load` is a pure function on this projection, which the backtracking
proofs exploit. -/
structure LoadState where
  r : List ReadResult
  b : List Nat
  pos : Position
  buf : List savedRune

/-- The load-engine projection of a stream. -/
def RuneStream.lp (s : RuneStream) : LoadState :=
  { r := s.r, b := s.b, pos := s.pos, buf := s.buf }

/-- One `Read` call against the modelled source: consume the next read
result, truncating its bytes to the requested capacity (a conforming
reader returns at most `cap` bytes into a `cap`-sized buffer).  An
exhausted model source behaves as a degenerate reader that keeps
returning `(0, nil)`. -/
def readOne (src : List ReadResult) (cap : Nat) : ReadResult × List ReadResult :=
  match src with
  | [] => ({ bytes := [], err := none }, [])
  | c :: rest => ({ bytes := c.bytes.take cap, err := c.err }, rest)

/-- The decode loop of `load`, with explicit structural fuel: while
`FullRune` holds on the pending bytes, decode one rune, record it at
the current position, advance the position, and drop the consumed
bytes.  Returns the recorded runes, the leftover bytes and the final
position.

The guard `1 ≤ size ≤ length` never fires for a decoder within its
contract (for UTF-8 this is proved in `utf8DecodeRune_size_bounds`
below); a decoder violating it would make the Go loop spin forever or
panic slicing `b[size:]`.  Because each iteration consumes at least
one byte, `b.length` bounds the number of iterations, so the fuel
used by `decodeLoop` below never runs out
(`decodeLoopF_fuel_irrelevant`). -/
def decodeLoopF (d : Decoder) : Nat → List Nat → Position → List savedRune × List Nat × Position
  | 0, b, pos => ([], b, pos)
  | fuel + 1, b, pos =>
    if d.FullRune b = true ∧ 1 ≤ (d.DecodeRune b).2 ∧ (d.DecodeRune b).2.toNat ≤ b.length then
      match decodeLoopF d fuel (b.drop (d.DecodeRune b).2.toNat)
          (pos.adv (d.DecodeRune b).1 (d.DecodeRune b).2.toNat) with
      | (us, rest, p) =>
        ({ pos := pos, value := (d.DecodeRune b).1, size := (d.DecodeRune b).2, err := none } :: us,
          rest, p)
    else
      ([], b, pos)

/-- The decode loop of `load` (`b.length` fuel always suffices). -/
def decodeLoop (d : Decoder) (b : List Nat) (pos : Position) :
    List savedRune × List Nat × Position :=
  decodeLoopF d b.length b pos

/-- One load step as a pure function on the load-engine state: panic
(`none`) at the uncommitted-log ceiling, otherwise issue exactly one
read of up to `bs` bytes, decode as many complete runes as available,
and append one terminal entry when the read reported an error. -/
def loadStep (d : Decoder) (bs : Nat) (L : LoadState) : Option LoadState :=
  if 0x40000000 ≤ L.buf.length then none
  else
    let rd := readOne L.r bs
    let dl := decodeLoop d (L.b ++ rd.1.bytes) L.pos
    some
      { r := rd.2
        b := dl.2.1
        pos := dl.2.2
        buf := L.buf ++ dl.1 ++
          (match rd.1.err with
           | some e => [{ pos := dl.2.2, value := 0, size := 0, err := some e }]
           | none => []) }

/-- Write a load-engine state back into a stream. -/
def RuneStream.setLp (s : RuneStream) (L : LoadState) : RuneStream :=
  { s with r := L.r, b := L.b, pos := L.pos, buf := L.buf }

/-- load reads the next block of runes from the byte stream. -/
def RuneStream.load (s : RuneStream) : Option RuneStream :=
  (loadStep s.d s.bs s.lp).map s.setLp

/-- The sticky-failure test at the top of `Advance`:
`stream.curr != nil && stream.curr.err != nil`. -/
def RuneStream.currTerminal (s : RuneStream) : Bool :=
  match s.curr with
  | some c => c.err.isSome
  | none => false

/-- Advance moves forward in the stream: `false` immediately if the
current unit is a terminal error; otherwise load when `spec` has
reached the end of the log, set the current unit to `log[spec]`
(panicking, `none`, if the log is still too short), increment `spec`,
and report whether the unit is a successful decode. -/
def RuneStream.Advance (s : RuneStream) : Option (Bool × RuneStream) :=
  if s.currTerminal then some (false, s)
  else
    match (if s.buf.length ≤ s.spec then s.load else some s) with
    | none => none
    | some s1 =>
      match s1.buf[s.spec]? with
      | none => none
      | some c => some (c.err.isNone, { s1 with curr := some c, spec := s.spec + 1 })

/-- Save creates a save point. -/
def RuneStream.Save (s : RuneStream) : SavePoint :=
  { gen := s.gen, spec := s.spec }

/-- Restore rewinds the stream to the given save point; a stale
generation is a panic. -/
def RuneStream.Restore (s : RuneStream) (sp : SavePoint) : Option RuneStream :=
  if sp.gen ≠ s.gen then none
  else some { s with spec := sp.spec, curr := none }

/-- Rewind rewinds the stream to the last Commit. -/
def RuneStream.Rewind (s : RuneStream) : RuneStream :=
  { s with spec := 0, curr := none }

/-- Commit drops `log[0..spec)`, increments the generation, resets
`spec` and clears the current unit.  (`buf[spec:]` with `spec` beyond
the log would be a Go slice-bounds panic; on reachable states
`spec ≤ len(buf)` always holds.) -/
def RuneStream.Commit (s : RuneStream) : Option RuneStream :=
  if s.spec ≤ s.buf.length then
    some { s with buf := s.buf.drop s.spec, gen := s.gen + 1, spec := 0, curr := none }
  else none

/-- Init/New: constructs a stream from a source and options.  Negative
`BlockSize` or a decoder reporting `Max() < 1` is a construction panic
(`none`); `BlockSize = 0` selects the default 4096 and a missing
decoder selects `UTF8Decoder`.  (`New` allocates a zero-valued stream
and calls `Init`, so its generation counter lands at 1.) -/
def RuneStream.New (src : List ReadResult) (o : Options) : Option RuneStream :=
  if o.BlockSize < 0 then none
  else
    let bs := if o.BlockSize = 0 then 4096 else o.BlockSize.toNat
    let d := o.OptDecoder.getD UTF8Decoder
    if d.Max < 1 then none
    else
      some
        { r := src, d := d, bs := bs, b := [], pos := MakePosition, buf := [],
          curr := none, gen := 1, spec := 0 }

/-- The byte supply still obtainable from the modelled source: each
pending read result contributes its bytes plus one slot for its
error/EOF signal. -/
def srcSupply (src : List ReadResult) : Nat :=
  (src.map (fun c => c.bytes.length + 1)).sum

/-- Termination measure for the `TakeWhile` loop: log entries not yet
speculatively consumed, plus pending bytes, plus source supply. -/
def muStream (s : RuneStream) : Nat :=
  (s.buf.length - s.spec) + s.b.length + srcSupply s.r

/-- TakeWhile's loop with explicit structural fuel, parameterized by
the rolling save point and the match count: while under `max`,
advance; stop on a failed advance or a failed predicate and restore
the last good save point; on a match, append the rune and roll the
save point forward.  Advancing can panic (source yields no progress
and no error), which propagates as `none`.  Every successful advance
strictly shrinks the supply measure `muStream`
(`advance_true_mu_lt`), so the fuel used by `TakeWhile` below never
runs out (`takeWhileGo_fuel_irrelevant`). -/
def takeWhileGo (pred : Int → Bool) (mx : Int) :
    Nat → RuneStream → SavePoint → Int → List Int → Option (List Int × RuneStream)
  | 0, _, _, _, _ => none
  | fuel + 1, s, sp, count, out =>
    if mx < 0 ∨ count < mx then
      match s.Advance with
      | none => none
      | some (ok, s1) =>
        if ok = true then
          match s1.curr with
          | some c =>
            if pred c.value then
              takeWhileGo pred mx fuel s1 s1.Save (count + 1) (out ++ [c.value])
            else
              (s1.Restore sp).map (fun t => (out, t))
          | none => none
        else
          (s1.Restore sp).map (fun t => (out, t))
    else
      (s.Restore sp).map (fun t => (out, t))

/-- TakeWhile consumes zero or more characters while `pred` holds,
accumulating onto `out`; `max < 0` means unbounded.  The fuel
`muStream s + 1` strictly dominates the number of loop iterations. -/
def RuneStream.TakeWhile (s : RuneStream) (mx : Int) (out : List Int)
    (pred : Int → Bool) : Option (List Int × RuneStream) :=
  takeWhileGo pred mx (muStream s + 1) s s.Save 0 out

/-- Rune returns the character at the current stream position (reading
an accessor with no current unit is a nil dereference in Go, `none`
here). -/
def RuneStream.Rune (s : RuneStream) : Option Int := s.curr.map (fun c => c.value)

/-- Size returns the byte count of the character at the current stream
position. -/
def RuneStream.Size (s : RuneStream) : Option Int := s.curr.map (fun c => c.size)

/-- Position returns the position of the stream. -/
def RuneStream.Position (s : RuneStream) : Option Position := s.curr.map (fun c => c.pos)

/-- Err returns the I/O error encountered while reading the stream. -/
def RuneStream.Err (s : RuneStream) : Option (Option Nat) := s.curr.map (fun c => c.err)

/-- Runs `n` consecutive `Advance` calls, keeping only the final state
(`none` as soon as one of them panics). -/
def advanceN (s : RuneStream) : Nat → Option RuneStream
  | 0 => some s
  | n + 1 =>
    match s.Advance with
    | none => none
    | some p => advanceN p.2 n

/-- The observation a caller makes after an `Advance`: the current
unit's rune, size and position as read by `Rune()`, `Size()`,
`Position()`. -/
def obsOf (s : RuneStream) : Option (Int × Int × Position) :=
  s.curr.map (fun c => (c.value, c.size, c.pos))

/-- The observable trace of `k` further `Advance` calls: for each call
its return value together with the observation after it; `none` if
any of the calls panics. -/
def traceA (s : RuneStream) : Nat → Option (List (Bool × Option (Int × Int × Position)))
  | 0 => some []
  | k + 1 =>
    match s.Advance with
    | none => none
    | some p => (traceA p.2 k).map (fun l => (p.1, obsOf p.2) :: l)

/-- One public stream operation, for stating properties over arbitrary
operation sequences. -/
inductive StreamOp where
  | advance : StreamOp
  | save : StreamOp
  | restoreTo : SavePoint → StreamOp
  | rewind : StreamOp
  | commit : StreamOp
deriving DecidableEq, Repr

/-- Apply one operation to a stream (`Save` computes a save point and
leaves the state unchanged). -/
def applyOp (s : RuneStream) : StreamOp → Option RuneStream
  | .advance => (s.Advance).map (fun p => p.2)
  | .save => some s
  | .restoreTo sp => s.Restore sp
  | .rewind => some s.Rewind
  | .commit => s.Commit

/-- Apply a sequence of operations left to right, stopping at the
first panic. -/
def applyOps (s : RuneStream) : List StreamOp → Option RuneStream
  | [] => some s
  | op :: rest =>
    match applyOp s op with
    | none => none
    | some t => applyOps t rest

/-- A placeholder stream used only as the default of `Option.getD`
when naming concrete states that provably exist. -/
def streamDefault : RuneStream :=
  { r := [], d := UTF8Decoder, bs := 4096, b := [], pos := MakePosition, buf := [],
    curr := none, gen := 1, spec := 0 }

/-- A decoder whose `Max` is zero, violating the `Max() >= 1`
requirement; used only to exercise the construction check. -/
def badDecoder : Decoder :=
  { Name := "bad", Max := 0, FullRune := fun _ => false, DecodeRune := fun _ => (0, 0) }

/-- The sum of the `size` fields of a list of saved runes (terminal
markers contribute their zero size). -/
def sumSizes : List savedRune → Int
  | [] => 0
  | u :: t => u.size + sumSizes t

/-- A UTF-8 continuation byte: `0x80 ≤ b ≤ 0xBF`. -/
def utf8Cont (b : Nat) : Bool :=
  decide (0x80 ≤ b) && decide (b ≤ 0xBF)

/-- Whether `p` starts with a valid UTF-8 encoding of one code point,
written out from the Unicode definition (shortest-form encodings of
U+0000..U+10FFFF excluding surrogates): this is the specification
side against which the decoder's replacement-character behaviour is
judged. -/
def utf8ValidFirst : List Nat → Bool
  | [] => false
  | b0 :: rest =>
    if b0 ≤ 0x7F then true
    else
      match rest with
      | [] => false
      | b1 :: rest2 =>
        if 0xC2 ≤ b0 ∧ b0 ≤ 0xDF then utf8Cont b1
        else
          match rest2 with
          | [] => false
          | b2 :: rest3 =>
            if b0 = 0xE0 then decide (0xA0 ≤ b1) && decide (b1 ≤ 0xBF) && utf8Cont b2
            else if 0xE1 ≤ b0 ∧ b0 ≤ 0xEC then utf8Cont b1 && utf8Cont b2
            else if b0 = 0xED then decide (0x80 ≤ b1) && decide (b1 ≤ 0x9F) && utf8Cont b2
            else if 0xEE ≤ b0 ∧ b0 ≤ 0xEF then utf8Cont b1 && utf8Cont b2
            else
              match rest3 with
              | [] => false
              | b3 :: _ =>
                if b0 = 0xF0 then
                  decide (0x90 ≤ b1) && decide (b1 ≤ 0xBF) && utf8Cont b2 && utf8Cont b3
                else if 0xF1 ≤ b0 ∧ b0 ≤ 0xF3 then utf8Cont b1 && utf8Cont b2 && utf8Cont b3
                else if b0 = 0xF4 then
                  decide (0x80 ≤ b1) && decide (b1 ≤ 0x8F) && utf8Cont b2 && utf8Cont b3
                else false

/-- Iterated load steps on the load-engine state (`none` as soon as
one step panics). -/
def loadIterP (d : Decoder) (bs : Nat) : LoadState → Nat → Option LoadState
  | L, 0 => some L
  | L, k + 1 =>
    match loadStep d bs L with
    | none => none
    | some L1 => loadIterP d bs L1 k

/-- States that `k` load steps from `L` all succeed and each strictly lengthens
the log.  In any panic-free run every load that `Advance` issues has
this property (the subsequent `log[spec]` access would panic
otherwise), so the loads recorded by an already-executed run form such
a chain. -/
def loadChain (d : Decoder) (bs : Nat) (L : LoadState) (k : Nat) : Prop :=
  ∀ i, i < k → ∃ a a', loadIterP d bs L i = some a ∧ loadStep d bs a = some a' ∧
    a.buf.length < a'.buf.length

/-- The simulation relation for Save/Restore determinism: `x` (the
run that advanced further and was restored) agrees with `y` on the
cursor fields, its load-engine state is `y`'s after a chain of `k`
pre-validated loads, and its current unit either agrees with `y`'s or
has just been cleared by `Restore` while `y`'s unit is not a terminal
error. -/
def Sim (x y : RuneStream) : Prop :=
  x.d = y.d ∧ x.bs = y.bs ∧ x.gen = y.gen ∧ x.spec = y.spec ∧
  y.spec ≤ y.buf.length ∧
  (∃ k, loadIterP y.d y.bs y.lp k = some x.lp ∧ loadChain y.d y.bs y.lp k) ∧
  (x.curr = y.curr ∨ (x.curr = none ∧ y.currTerminal = false))

/-- The offset bookkeeping invariant of the load engine: every log
entry was recorded at the byte offset equal to the sum of the sizes
of the entries before it, successful entries consumed at least one
byte, and the tracker's current offset is the sum over the whole
log. -/
def bufInv (L : LoadState) : Prop :=
  (∀ i c, L.buf[i]? = some c →
    (c.err = none → 1 ≤ c.size) ∧ (c.pos.Offset : Int) = sumSizes (L.buf.take i)) ∧
  (L.pos.Offset : Int) = sumSizes L.buf

/-- The concrete four-advance run over the bytes of "A@ B" used to
exercise the cumulative-offset theorem (65; the two-byte sequence
0xC3 0xB1; 66; then end of data). -/
def c6s0 : RuneStream :=
  (RuneStream.New
    [{ bytes := [65, 0xC3, 0xB1, 66], err := none }, { bytes := [], err := some 0 }]
    { BlockSize := 0, OptDecoder := none }).getD streamDefault

/-- The stream after four advances of the concrete run. -/
def c6run : RuneStream := (advanceN c6s0 4).getD streamDefault

/-- The third log entry of the concrete run. -/
def c6unit : savedRune :=
  (c6run.buf[2]?).getD { pos := MakePosition, value := 0, size := 0, err := none }

/-- The failing input for the sticky-terminal claim: a well-behaved
empty source that reports error 1 on every read (like io.EOF
forever). -/
def c1src : List ReadResult :=
  [{ bytes := [], err := some 1 }, { bytes := [], err := some 1 }]

/-- Fresh stream over the failing input. -/
def c1s0 : RuneStream :=
  (RuneStream.New c1src { BlockSize := 0, OptDecoder := none }).getD streamDefault

/-- After one advance: the log holds the terminal unit, the cursor
sits on it. -/
def c1s1 : RuneStream := (c1s0.Advance.map (fun p => p.2)).getD streamDefault

/-- After a save point taken at the terminal unit is restored: the
cursor pointer is cleared while the speculative index stays past the
terminal entry. -/
def c1s2 : RuneStream := (c1s1.Restore c1s1.Save).getD streamDefault

/-- Counterexample source for C2: an error, then recovered data (legal for io.Reader: transient error). -/
def c2src : List ReadResult := [{ bytes := [], err := some 7 }, { bytes := [65], err := none }]
def c2s0 : RuneStream :=
  (RuneStream.New c2src { BlockSize := 0, OptDecoder := none }).getD streamDefault
def c2sN : RuneStream := (advanceN c2s0 1).getD streamDefault
def c2sR : RuneStream := (c2sN.Restore c2sN.Save).getD streamDefault

/-- Witness source for C2: one byte, then end of data. -/
def w2src : List ReadResult := [{ bytes := [97], err := none }, { bytes := [], err := some 0 }]
def w2s0 : RuneStream :=
  (RuneStream.New w2src { BlockSize := 0, OptDecoder := none }).getD streamDefault
def w2sN : RuneStream := (advanceN w2s0 1).getD streamDefault
def w2sM : RuneStream := (advanceN w2sN 1).getD streamDefault
def w2sR : RuneStream := (w2sM.Restore w2sN.Save).getD streamDefault

/-! ## Supporting lemmas -/

/-- Helper: a successful list lookup is within bounds. -/
theorem get?_some_lt {α : Type} {l : List α} {i : Nat} {c : α}
    (h : l[i]? = some c) : i < l.length := by
  by_contra hlt
  rw [List.getElem?_eq_none (by omega)] at h
  exact Option.noConfusion h

/-- Helper: list lookup on the left part of an append. -/
theorem get?_append_left {α : Type} (l₁ l₂ : List α) (i : Nat)
    (h : i < l₁.length) : (l₁ ++ l₂)[i]? = l₁[i]? := by
  induction l₁ generalizing i with
  | nil => simp at h
  | cons a t ih =>
    cases i with
    | zero => simp
    | succ j =>
      simp only [List.cons_append, List.getElem?_cons_succ]
      exact ih j (by simpa using Nat.lt_of_succ_lt_succ h)

/-- Any fuel of at least `b.length` yields the same decode-loop result:
the fuel in `decodeLoop` is an upper bound, not a semantic cutoff. -/
theorem decodeLoopF_fuel_irrelevant (d : Decoder) :
    ∀ (f f' : Nat) (b : List Nat) (pos : Position), b.length ≤ f → b.length ≤ f' →
      decodeLoopF d f b pos = decodeLoopF d f' b pos := by
  intro f
  induction f with
  | zero =>
    intro f' b pos hf hf'
    have hb : b = [] := List.length_eq_zero.mp (by omega)
    subst hb
    cases f' with
    | zero => rfl
    | succ g =>
      simp only [decodeLoopF]
      rw [if_neg]
      rintro ⟨h1, h2, h3⟩
      simp at h3
      omega
  | succ f ih =>
    intro f' b pos hf hf'
    cases f' with
    | zero =>
      have hb : b = [] := List.length_eq_zero.mp (by omega)
      subst hb
      simp only [decodeLoopF]
      rw [if_neg]
      rintro ⟨h1, h2, h3⟩
      simp at h3
      omega
    | succ g =>
      simp only [decodeLoopF]
      by_cases h : d.FullRune b = true ∧ 1 ≤ (d.DecodeRune b).2 ∧
          (d.DecodeRune b).2.toNat ≤ b.length
      · rw [if_pos h, if_pos h]
        have hlen : (b.drop (d.DecodeRune b).2.toNat).length =
            b.length - (d.DecodeRune b).2.toNat := List.length_drop ..
        rw [ih g (b.drop (d.DecodeRune b).2.toNat)
          (pos.adv (d.DecodeRune b).1 (d.DecodeRune b).2.toNat) (by omega) (by omega)]
      · rw [if_neg h, if_neg h]

/-- The decode loop never produces more runes plus leftover bytes than
it was given bytes. -/
theorem decodeLoopF_supply (d : Decoder) :
    ∀ (f : Nat) (b : List Nat) (pos : Position),
      (decodeLoopF d f b pos).1.length + (decodeLoopF d f b pos).2.1.length ≤ b.length := by
  intro f
  induction f with
  | zero => intro b pos; simp [decodeLoopF]
  | succ f ih =>
    intro b pos
    simp only [decodeLoopF]
    by_cases h : d.FullRune b = true ∧ 1 ≤ (d.DecodeRune b).2 ∧
        (d.DecodeRune b).2.toNat ≤ b.length
    · rw [if_pos h]
      have hlen : (b.drop (d.DecodeRune b).2.toNat).length =
          b.length - (d.DecodeRune b).2.toNat := List.length_drop ..
      have hrec := ih (b.drop (d.DecodeRune b).2.toNat)
        (pos.adv (d.DecodeRune b).1 (d.DecodeRune b).2.toNat)
      cases hc : decodeLoopF d f (b.drop (d.DecodeRune b).2.toNat)
          (pos.adv (d.DecodeRune b).1 (d.DecodeRune b).2.toNat) with
      | mk us rp =>
        rw [hc, hlen] at hrec
        dsimp only at hrec
        simp only [List.length_cons]
        omega
    · rw [if_neg h]
      simp

/-- The decode loop never produces more runes plus leftover bytes than
it was given bytes (used both for `TakeWhile` termination and for the
offset bookkeeping). -/
theorem decodeLoop_supply (d : Decoder) (b : List Nat) (pos : Position) :
    (decodeLoop d b pos).1.length + (decodeLoop d b pos).2.1.length ≤ b.length :=
  decodeLoopF_supply d b.length b pos

/-- A read call hands out at most its supply: the bytes returned, the
remaining supply and (when an error is reported) one signal slot are
covered by the source's supply. -/
theorem readOne_supply (src : List ReadResult) (cap : Nat) :
    (readOne src cap).1.bytes.length + srcSupply (readOne src cap).2 ≤ srcSupply src ∧
      ((readOne src cap).1.err.isSome = true →
        (readOne src cap).1.bytes.length + srcSupply (readOne src cap).2 + 1 ≤ srcSupply src) := by
  cases src with
  | nil => simp [readOne, srcSupply]
  | cons c rest =>
    simp only [readOne, srcSupply, List.map_cons, List.sum_cons]
    have htake : (c.bytes.take cap).length ≤ c.bytes.length := by
      simp [List.length_take]
    exact ⟨by omega, fun _ => by omega⟩

/-- A load step never increases the total supply measure
(log length + pending bytes + source supply). -/
theorem loadStep_supply {d : Decoder} {bs : Nat} {L L' : LoadState}
    (h : loadStep d bs L = some L') :
    L'.buf.length + L'.b.length + srcSupply L'.r ≤
      L.buf.length + L.b.length + srcSupply L.r := by
  unfold loadStep at h
  by_cases hc : 0x40000000 ≤ L.buf.length
  · rw [if_pos hc] at h; exact Option.noConfusion h
  · rw [if_neg hc] at h
    injection h with h
    subst h
    have hdl := decodeLoop_supply d (L.b ++ (readOne L.r bs).1.bytes) L.pos
    rw [List.length_append] at hdl
    have hro := readOne_supply L.r bs
    dsimp only
    simp only [List.length_append]
    cases herr : (readOne L.r bs).1.err with
    | none =>
      have hro1 := hro.1
      simp only [herr, List.length_nil]
      omega
    | some e =>
      have hro2 := hro.2 (by rw [herr]; rfl)
      simp only [herr, List.length_cons, List.length_nil]
      omega

/-- A successful `Advance` that returns `true` strictly shrinks the
supply measure (this bounds the `TakeWhile` loop). -/
theorem advance_true_mu_lt {s : RuneStream} {ok : Bool} {s1 : RuneStream}
    (hadv : s.Advance = some (ok, s1)) (hok : ok = true) :
    muStream s1 < muStream s := by
  unfold RuneStream.Advance at hadv
  by_cases ht : s.currTerminal
  · rw [if_pos ht] at hadv
    injection hadv with hadv
    injection hadv with h1 h2
    exact Bool.noConfusion (h1.trans hok)
  · rw [if_neg ht] at hadv
    by_cases hl : s.buf.length ≤ s.spec
    · rw [if_pos hl] at hadv
      cases hload : s.load with
      | none => rw [hload] at hadv; exact Option.noConfusion hadv
      | some sl =>
        rw [hload] at hadv
        simp only at hadv
        cases hget : sl.buf[s.spec]? with
        | none => rw [hget] at hadv; exact Option.noConfusion hadv
        | some c =>
          rw [hget] at hadv
          injection hadv with hadv
          injection hadv with h1 h2
          subst h2
          have hlt := get?_some_lt hget
          unfold RuneStream.load at hload
          cases hstep : loadStep s.d s.bs s.lp with
          | none => rw [hstep] at hload; exact Option.noConfusion hload
          | some L' =>
            rw [hstep] at hload
            injection hload with hload
            have hsup := loadStep_supply hstep
            subst hload
            simp only [muStream, RuneStream.setLp, RuneStream.lp] at hsup hlt ⊢
            omega
    · rw [if_neg hl] at hadv
      simp only at hadv
      cases hget : s.buf[s.spec]? with
      | none => rw [hget] at hadv; exact Option.noConfusion hadv
      | some c =>
        rw [hget] at hadv
        injection hadv with hadv
        injection hadv with h1 h2
        subst h2
        simp only [muStream]
        omega

/-- Any fuel strictly above the supply measure yields the same
`TakeWhile` loop result: the fuel in `TakeWhile` is an upper bound,
not a semantic cutoff. -/
theorem takeWhileGo_fuel_irrelevant (pred : Int → Bool) (mx : Int) :
    ∀ (f f' : Nat) (s : RuneStream) (sp : SavePoint) (count : Int) (out : List Int),
      muStream s < f → muStream s < f' →
      takeWhileGo pred mx f s sp count out = takeWhileGo pred mx f' s sp count out := by
  intro f
  induction f with
  | zero => intro f' s sp count out hf; omega
  | succ f ih =>
    intro f' s sp count out hf hf'
    cases f' with
    | zero => omega
    | succ g =>
      simp only [takeWhileGo]
      by_cases hm : mx < 0 ∨ count < mx
      · rw [if_pos hm, if_pos hm]
        cases hadv : s.Advance with
        | none => rfl
        | some p =>
          cases p with
          | mk ok s1 =>
            dsimp only
            by_cases hok : ok = true
            · rw [if_pos hok, if_pos hok]
              cases s1.curr with
              | none => rfl
              | some c =>
                dsimp only
                by_cases hp : pred c.value
                · rw [if_pos hp, if_pos hp]
                  have hmu := advance_true_mu_lt hadv hok
                  exact ih g s1 s1.Save (count + 1) (out ++ [c.value]) (by omega) (by omega)
                · rw [if_neg hp, if_neg hp]
            · rw [if_neg hok, if_neg hok]
      · rw [if_neg hm, if_neg hm]

/-- A load keeps every cursor/identity field of the stream: only the
load-engine fields (reader, pending bytes, position, log) change. -/
theorem load_fields {s t : RuneStream} (h : s.load = some t) :
    t.gen = s.gen ∧ t.spec = s.spec ∧ t.curr = s.curr ∧ t.d = s.d ∧ t.bs = s.bs := by
  unfold RuneStream.load at h
  cases hls : loadStep s.d s.bs s.lp with
  | none => rw [hls] at h; exact Option.noConfusion h
  | some L =>
    rw [hls] at h
    injection h with h
    subst h
    exact ⟨rfl, rfl, rfl, rfl, rfl⟩

/-- An advance never changes the generation, the decoder or the block
size. -/
theorem advance_fields {s : RuneStream} {ok : Bool} {t : RuneStream}
    (h : s.Advance = some (ok, t)) :
    t.gen = s.gen ∧ t.d = s.d ∧ t.bs = s.bs := by
  unfold RuneStream.Advance at h
  by_cases ht : s.currTerminal
  · rw [if_pos ht] at h
    injection h with h
    injection h with h1 h2
    subst h2
    exact ⟨rfl, rfl, rfl⟩
  · rw [if_neg ht] at h
    by_cases hl : s.buf.length ≤ s.spec
    · rw [if_pos hl] at h
      cases hload : s.load with
      | none => rw [hload] at h; exact Option.noConfusion h
      | some s1 =>
        rw [hload] at h
        simp only at h
        cases hget : s1.buf[s.spec]? with
        | none => rw [hget] at h; exact Option.noConfusion h
        | some c =>
          rw [hget] at h
          injection h with h
          injection h with h1 h2
          subst h2
          have hf := load_fields hload
          exact ⟨hf.1, hf.2.2.2.1, hf.2.2.2.2⟩
    · rw [if_neg hl] at h
      simp only at h
      cases hget : s.buf[s.spec]? with
      | none => rw [hget] at h; exact Option.noConfusion h
      | some c =>
        rw [hget] at h
        injection h with h
        injection h with h1 h2
        subst h2
        exact ⟨rfl, rfl, rfl⟩

/-- Every operation is monotone in the generation counter, and a
commit strictly increases it. -/
theorem applyOp_gen {s t : RuneStream} {op : StreamOp} (h : applyOp s op = some t) :
    s.gen ≤ t.gen ∧ (op = StreamOp.commit → s.gen < t.gen) := by
  cases op with
  | advance =>
    simp only [applyOp] at h
    cases hadv : s.Advance with
    | none => rw [hadv] at h; exact Option.noConfusion h
    | some p =>
      rw [hadv] at h
      injection h with h
      subst h
      cases p with
      | mk ok s1 => exact ⟨Nat.le_of_eq (advance_fields hadv).1.symm, fun hc => nomatch hc⟩
  | save =>
    simp only [applyOp] at h
    injection h with h
    subst h
    exact ⟨Nat.le_refl _, fun hc => nomatch hc⟩
  | restoreTo sp =>
    simp only [applyOp, RuneStream.Restore] at h
    by_cases hg : sp.gen ≠ s.gen
    · rw [if_pos hg] at h; exact Option.noConfusion h
    · rw [if_neg hg] at h
      injection h with h
      subst h
      exact ⟨Nat.le_refl _, fun hc => nomatch hc⟩
  | rewind =>
    simp only [applyOp] at h
    injection h with h
    subst h
    exact ⟨Nat.le_refl _, fun hc => nomatch hc⟩
  | commit =>
    simp only [applyOp, RuneStream.Commit] at h
    by_cases hs : s.spec ≤ s.buf.length
    · rw [if_pos hs] at h
      injection h with h
      subst h
      exact ⟨Nat.le_succ _, fun _ => Nat.lt_succ_self _⟩
    · rw [if_neg hs] at h; exact Option.noConfusion h

/-- Over a whole operation sequence the generation is monotone, and it
strictly increases as soon as the sequence contains a commit. -/
theorem applyOps_gen {s t : RuneStream} {ops : List StreamOp}
    (h : applyOps s ops = some t) :
    s.gen ≤ t.gen ∧ (StreamOp.commit ∈ ops → s.gen < t.gen) := by
  induction ops generalizing s with
  | nil =>
    simp only [applyOps] at h
    injection h with h
    subst h
    exact ⟨Nat.le_refl _, fun hc => nomatch hc⟩
  | cons op rest ih =>
    simp only [applyOps] at h
    cases hop : applyOp s op with
    | none => rw [hop] at h; exact Option.noConfusion h
    | some u =>
      rw [hop] at h
      have h1 := applyOp_gen hop
      have h2 := ih h
      refine ⟨Nat.le_trans h1.1 h2.1, ?_⟩
      intro hmem
      rcases List.mem_cons.mp hmem with hc | hc
      · exact Nat.lt_of_lt_of_le (h1.2 hc.symm) h2.1
      · exact Nat.lt_of_le_of_lt h1.1 (h2.2 hc)

/-! ## Claims -/

/-- Claim C4: `Position.Advance` on a carriage return (with positive
size) increments the line, resets the column to 1 and sets
`SkipNextLF`; a following newline while `SkipNextLF` is set only adds
its size to the offset and clears the flag, leaving line and column
unchanged; consequently decoding the input "a\r\nb" records per-unit
(line, column) positions (1,1), (1,2), (2,1), (2,1). -/
theorem C4_crlf_positions :
    (∀ (pos : Position) (sz : Int), 0 < sz →
      pos.Advance 13 sz = some { pos with
        Offset := pos.Offset + sz.toNat,
        Line := pos.Line + 1, Column := 1, SkipNextLF := true }) ∧
    (∀ (pos : Position) (sz : Int), 0 < sz → pos.SkipNextLF = true →
      pos.Advance 10 sz = some { pos with
        Offset := pos.Offset + sz.toNat,
        SkipNextLF := false }) ∧
    ((RuneStream.New [{ bytes := [97, 13, 10, 98], err := none }]
          { BlockSize := 0, OptDecoder := none }).bind
        (fun s => traceA s 4)).map
        (List.map (fun e => e.2.map (fun o => (o.2.2.Line, o.2.2.Column)))) =
      some [some (1, 1), some (1, 2), some (2, 1), some (2, 1)] := by
  refine ⟨?_, ?_, by decide⟩
  · intro pos sz h
    have h0 : ¬ sz < 0 := by omega
    have h1 : ¬ sz.toNat = 0 := by omega
    simp [Position.Advance, Position.adv, h0, h1]
  · intro pos sz h hskip
    have h0 : ¬ sz < 0 := by omega
    have h1 : ¬ sz.toNat = 0 := by omega
    simp [Position.Advance, Position.adv, h0, h1, hskip]

/-- Witness for C4 at concrete inputs: the '\r' clause at position
(line 3, column 7) with size 1, and the '\n'-after-'\r' clause at the
resulting position. -/
theorem C4_crlf_positions_witness :
    Position.Advance { Offset := 5, Line := 3, Column := 7, SkipNextLF := false } 13 1 =
      some { Offset := 6, Line := 4, Column := 1, SkipNextLF := true } ∧
    Position.Advance { Offset := 6, Line := 4, Column := 1, SkipNextLF := true } 10 1 =
      some { Offset := 7, Line := 4, Column := 1, SkipNextLF := false } :=
  ⟨C4_crlf_positions.1 { Offset := 5, Line := 3, Column := 7, SkipNextLF := false } 1
      (by decide),
    C4_crlf_positions.2.1 { Offset := 6, Line := 4, Column := 1, SkipNextLF := true } 1
      (by decide) rfl⟩

/-- Claim C5: for every column ≥ 1, `Position.Advance` on a tab (with
positive size) moves the column to the smallest value of the form
8k + 1 strictly greater than the current column, and clears
`SkipNextLF` (line unchanged, offset advanced by the size). -/
theorem C5_tab_stops :
    ∀ (pos : Position) (sz : Int), 0 < sz → 1 ≤ pos.Column →
      ∃ p', pos.Advance 9 sz = some p' ∧
        p'.Column = 8 * ((pos.Column - 1) / 8) + 9 ∧
        p'.Column % 8 = 1 ∧
        pos.Column < p'.Column ∧
        (∀ m, m % 8 = 1 → pos.Column < m → p'.Column ≤ m) ∧
        p'.SkipNextLF = false ∧ p'.Line = pos.Line ∧
        p'.Offset = pos.Offset + sz.toNat := by
  intro pos sz h hc
  have h0 : ¬ sz < 0 := by omega
  have h1 : ¬ sz.toNat = 0 := by omega
  refine ⟨{ pos with
      Offset := pos.Offset + sz.toNat,
      Column := pos.Column + (8 - (pos.Column - 1) % 8), SkipNextLF := false },
    ?_, ?_, ?_, ?_, ?_, rfl, rfl, rfl⟩
  · simp [Position.Advance, Position.adv, h0, h1]
  · simp only
    omega
  · simp only
    omega
  · simp only
    omega
  · intro m hm hlt
    simp only
    omega

/-- Witness for C5: from columns 1, 5 and 9 a tab moves to columns 9,
9 and 17 respectively. -/
theorem C5_tab_stops_witness :
    (∃ p', Position.Advance { Offset := 0, Line := 1, Column := 1, SkipNextLF := false } 9 1 =
        some p' ∧ p'.Column = 8 * ((1 - 1) / 8) + 9 ∧ p'.Column % 8 = 1 ∧ 1 < p'.Column ∧
        (∀ m, m % 8 = 1 → 1 < m → p'.Column ≤ m) ∧ p'.SkipNextLF = false ∧ p'.Line = 1 ∧
        p'.Offset = 0 + (1 : Int).toNat) ∧
    Position.Advance { Offset := 0, Line := 1, Column := 5, SkipNextLF := false } 9 1 =
      some { Offset := 1, Line := 1, Column := 9, SkipNextLF := false } ∧
    Position.Advance { Offset := 0, Line := 1, Column := 9, SkipNextLF := false } 9 1 =
      some { Offset := 1, Line := 1, Column := 17, SkipNextLF := false } :=
  ⟨C5_tab_stops { Offset := 0, Line := 1, Column := 1, SkipNextLF := false } 1
      (by decide) (by decide),
    by decide, by decide⟩

/-- Claim C7: construction with negative `BlockSize`, or with a
decoder reporting `Max() < 1`, panics; `BlockSize = 0` selects the
default block size 4096 and a missing decoder selects the default
UTF-8 decoder. -/
theorem C7_init_validation :
    (∀ (src : List ReadResult) (o : Options), o.BlockSize < 0 →
      RuneStream.New src o = none) ∧
    (∀ (src : List ReadResult) (o : Options) (d : Decoder),
      o.OptDecoder = some d → d.Max < 1 → RuneStream.New src o = none) ∧
    (∀ (src : List ReadResult) (s : RuneStream),
      RuneStream.New src { BlockSize := 0, OptDecoder := none } = some s →
      s.bs = 4096 ∧ s.d = UTF8Decoder) ∧
    (∀ (src : List ReadResult),
      (RuneStream.New src { BlockSize := 0, OptDecoder := none }).isSome = true) := by
  refine ⟨?_, ?_, ?_, ?_⟩
  · intro src o h
    rw [RuneStream.New, if_pos h]
  · intro src o d hd hmax
    rw [RuneStream.New]
    by_cases h : o.BlockSize < 0
    · rw [if_pos h]
    · rw [if_neg h]
      simp only [hd, Option.getD_some]
      rw [if_pos hmax]
  · intro src s h
    rw [RuneStream.New] at h
    simp only [Int.lt_irrefl, if_false, if_pos rfl, Option.getD_none] at h
    rw [if_neg (by decide)] at h
    injection h with h
    subst h
    exact ⟨rfl, rfl⟩
  · intro src
    rfl

/-- Witness for C7: `New` panics on BlockSize -1 and on a decoder with
`Max = 0`, and with all-default options it yields block size 4096 and
the UTF-8 decoder. -/
theorem C7_init_validation_witness :
    RuneStream.New [] { BlockSize := -1, OptDecoder := none } = none ∧
    RuneStream.New [] { BlockSize := 16, OptDecoder := some badDecoder } = none ∧
    (((RuneStream.New [] { BlockSize := 0, OptDecoder := none }).getD streamDefault).bs = 4096 ∧
      ((RuneStream.New [] { BlockSize := 0, OptDecoder := none }).getD streamDefault).d =
        UTF8Decoder) :=
  ⟨C7_init_validation.1 [] { BlockSize := -1, OptDecoder := none } (by decide),
    C7_init_validation.2.1 [] { BlockSize := 16, OptDecoder := some badDecoder }
      badDecoder rfl (by decide),
    C7_init_validation.2.2.1 [] _ rfl⟩

/-- Claim C9: `Save` computes a save point without touching the
stream; `Restore` with a matching generation and `Rewind` modify only
the speculative index and the current-unit pointer, leaving the log,
the pending bytes, the position, the generation and the source
(hence: no read is issued) unchanged. -/
theorem C9_save_restore_rewind_frame :
    ∀ (s : RuneStream) (sp : SavePoint), sp.gen = s.gen →
      s.Save = { gen := s.gen, spec := s.spec } ∧
      s.Restore sp = some { s with spec := sp.spec, curr := none } ∧
      (∀ t, s.Restore sp = some t →
        t.buf = s.buf ∧ t.b = s.b ∧ t.pos = s.pos ∧ t.gen = s.gen ∧ t.r = s.r ∧
          t.d = s.d ∧ t.bs = s.bs ∧ t.spec = sp.spec ∧ t.curr = none) ∧
      (s.Rewind.buf = s.buf ∧ s.Rewind.b = s.b ∧ s.Rewind.pos = s.pos ∧
        s.Rewind.gen = s.gen ∧ s.Rewind.r = s.r ∧ s.Rewind.d = s.d ∧ s.Rewind.bs = s.bs ∧
        s.Rewind.spec = 0 ∧ s.Rewind.curr = none) := by
  intro s sp hgen
  have hres : s.Restore sp = some { s with spec := sp.spec, curr := none } := by
    rw [RuneStream.Restore, if_neg (by simp [hgen])]
  refine ⟨rfl, hres, ?_, rfl, rfl, rfl, rfl, rfl, rfl, rfl, rfl, rfl⟩
  intro t ht
  rw [hres] at ht
  injection ht with ht
  subst ht
  exact ⟨rfl, rfl, rfl, rfl, rfl, rfl, rfl, rfl, rfl⟩

/-- Witness for C9 on a concrete stream with a matching-generation
save point. -/
theorem C9_save_restore_rewind_frame_witness :
    ({ r := [], d := UTF8Decoder, bs := 4096, b := [], pos := MakePosition,
        buf := [], curr := none, gen := 7, spec := 3 } : RuneStream).Restore
        { gen := 7, spec := 1 } =
      some { r := [], d := UTF8Decoder, bs := 4096, b := [], pos := MakePosition,
             buf := [], curr := none, gen := 7, spec := 1 } :=
  (C9_save_restore_rewind_frame
    { r := [], d := UTF8Decoder, bs := 4096, b := [], pos := MakePosition,
      buf := [], curr := none, gen := 7, spec := 3 }
    { gen := 7, spec := 1 } rfl).2.1

/-- Claim C3: any save point taken before a commit is stale afterward:
for every stream and every operation sequence containing a `Commit`,
restoring the earlier save point panics (stale-generation detection)
rather than silently succeeding, because `Commit` increments the
generation. -/
theorem C3_commit_invalidates_savepoints :
    ∀ (s : RuneStream) (ops : List StreamOp) (t : RuneStream),
      StreamOp.commit ∈ ops → applyOps s ops = some t →
      t.Restore s.Save = none := by
  intro s ops t hmem happ
  have hg := (applyOps_gen happ).2 hmem
  rw [RuneStream.Restore, if_pos]
  simp only [RuneStream.Save]
  omega

/-- Witness for C3: on a fresh stream, a save point followed by one
commit can no longer be restored. -/
theorem C3_commit_invalidates_savepoints_witness :
    ((applyOps streamDefault [StreamOp.commit]).getD streamDefault).Restore
      streamDefault.Save = none :=
  C3_commit_invalidates_savepoints streamDefault [StreamOp.commit]
    ((applyOps streamDefault [StreamOp.commit]).getD streamDefault)
    (List.mem_singleton.mpr rfl) rfl

/-- Claim C8: `TakeWhile` with a predicate that is false on every rune
returns the seed sequence unchanged and leaves the speculative index
at its pre-call value (whenever the call returns at all, i.e. the one
advance it attempts does not panic). -/
theorem C8_takewhile_identity :
    ∀ (s : RuneStream) (mx : Int) (out : List Int) (pred : Int → Bool),
      (∀ r, pred r = false) →
      ∀ res, s.TakeWhile mx out pred = some res →
        res.1 = out ∧ res.2.spec = s.spec := by
  intro s mx out pred hp res h
  rw [RuneStream.TakeWhile] at h
  rw [takeWhileGo] at h
  have hrestore : ∀ u : RuneStream, u.gen = s.gen →
      ∀ v, u.Restore s.Save = some v → v.spec = s.spec := by
    intro u hu v hv
    rw [RuneStream.Restore, RuneStream.Save] at hv
    rw [if_neg (by simp [hu])] at hv
    injection hv with hv
    subst hv
    rfl
  by_cases hm : mx < 0 ∨ (0 : Int) < mx
  · rw [if_pos hm] at h
    cases hadv : s.Advance with
    | none => rw [hadv] at h; exact Option.noConfusion h
    | some p =>
      rw [hadv] at h
      simp only at h
      cases p with
      | mk ok s1 =>
        have hgen := (advance_fields hadv).1
        by_cases hok : ok = true
        · rw [if_pos hok] at h
          cases hc : s1.curr with
          | none => rw [hc] at h; exact Option.noConfusion h
          | some c =>
            rw [hc] at h
            simp only at h
            rw [hp c.value, if_neg (by simp)] at h
            cases hres : s1.Restore s.Save with
            | none => rw [hres] at h; exact Option.noConfusion h
            | some v =>
              rw [hres] at h
              injection h with h
              subst h
              exact ⟨rfl, hrestore s1 hgen v hres⟩
        · rw [if_neg hok] at h
          cases hres : s1.Restore s.Save with
          | none => rw [hres] at h; exact Option.noConfusion h
          | some v =>
            rw [hres] at h
            injection h with h
            subst h
            exact ⟨rfl, hrestore s1 hgen v hres⟩
  · rw [if_neg hm] at h
    cases hres : s.Restore s.Save with
    | none => rw [hres] at h; exact Option.noConfusion h
    | some v =>
      rw [hres] at h
      injection h with h
      subst h
      exact ⟨rfl, hrestore s rfl v hres⟩

/-- Witness for C8: on a concrete one-byte stream, `TakeWhile` with
the constantly-false predicate returns the seed `[5, 6]` and leaves
the speculative index at its pre-call value. -/
theorem C8_takewhile_identity_witness :
    ∃ res, ((RuneStream.New [{ bytes := [65], err := none }]
          { BlockSize := 0, OptDecoder := none }).getD streamDefault).TakeWhile
        (-1) [5, 6] (fun _ => false) = some res ∧
      res.1 = [5, 6] ∧
      res.2.spec = ((RuneStream.New [{ bytes := [65], err := none }]
          { BlockSize := 0, OptDecoder := none }).getD streamDefault).spec := by
  have hs : (((RuneStream.New [{ bytes := [65], err := none }]
      { BlockSize := 0, OptDecoder := none }).getD streamDefault).TakeWhile
      (-1) [5, 6] (fun _ => false)).isSome = true := rfl
  obtain ⟨res, hres⟩ := Option.isSome_iff_exists.mp hs
  have h := C8_takewhile_identity
    ((RuneStream.New [{ bytes := [65], err := none }]
        { BlockSize := 0, OptDecoder := none }).getD streamDefault)
    (-1) [5, 6] (fun _ => false) (fun _ => rfl) res hres
  exact ⟨res, hres, h.1, h.2⟩

/-- Helper: list lookup on the right part of an append. -/
theorem get?_append_right {α : Type} (l₁ l₂ : List α) (j : Nat) :
    (l₁ ++ l₂)[l₁.length + j]? = l₂[j]? := by
  induction l₁ with
  | nil => simp
  | cons a t ih => simpa [Nat.succ_add] using ih

/-- Helper: taking within the left part of an append. -/
theorem take_append_left {α : Type} (l₁ l₂ : List α) (i : Nat) (h : i ≤ l₁.length) :
    (l₁ ++ l₂).take i = l₁.take i := by
  induction l₁ generalizing i with
  | nil =>
    have : i = 0 := by simpa using h
    simp [this]
  | cons a t ih =>
    cases i with
    | zero => simp
    | succ j =>
      simp only [List.cons_append, List.take_succ_cons]
      rw [ih j (by simpa using Nat.le_of_succ_le_succ h)]

/-- Helper: taking the left part of an append plus a prefix of the
right part. -/
theorem take_append_add {α : Type} (l₁ l₂ : List α) (j : Nat) :
    (l₁ ++ l₂).take (l₁.length + j) = l₁ ++ l₂.take j := by
  induction l₁ with
  | nil => simp
  | cons a t ih => simpa [Nat.succ_add] using ih

/-- Sum of sizes distributes over append. -/
theorem sumSizes_append (l₁ l₂ : List savedRune) :
    sumSizes (l₁ ++ l₂) = sumSizes l₁ + sumSizes l₂ := by
  induction l₁ with
  | nil => simp [sumSizes]
  | cons u t ih => simp [sumSizes, ih]; omega

/-- Advancing a position by a positive byte count adds exactly that
count to the offset, whatever the character. -/
theorem adv_offset (pos : Position) (ch : Int) (n : Nat) (h : n ≠ 0) :
    (pos.adv ch n).Offset = pos.Offset + n := by
  unfold Position.adv
  rw [if_neg h]
  dsimp only
  split_ifs <;> rfl

/-- Offset bookkeeping of the decode loop: each decoded rune is
recorded as successful, with size at least 1, at the offset reached
by summing the sizes decoded before it, and the final position's
offset adds the sizes of everything decoded. -/
theorem decodeLoopF_offsets (d : Decoder) :
    ∀ (f : Nat) (b : List Nat) (pos : Position),
      (∀ i c, (decodeLoopF d f b pos).1[i]? = some c →
        c.err = none ∧ 1 ≤ c.size ∧
        (c.pos.Offset : Int) = pos.Offset + sumSizes ((decodeLoopF d f b pos).1.take i)) ∧
      ((decodeLoopF d f b pos).2.2.Offset : Int) =
        pos.Offset + sumSizes (decodeLoopF d f b pos).1 := by
  intro f
  induction f with
  | zero =>
    intro b pos
    refine ⟨?_, by simp [decodeLoopF, sumSizes]⟩
    intro i c hc
    simp [decodeLoopF] at hc
  | succ f ih =>
    intro b pos
    simp only [decodeLoopF]
    by_cases h : d.FullRune b = true ∧ 1 ≤ (d.DecodeRune b).2 ∧
        (d.DecodeRune b).2.toNat ≤ b.length
    · rw [if_pos h]
      have hcast : ((d.DecodeRune b).2.toNat : Int) = (d.DecodeRune b).2 :=
        Int.toNat_of_nonneg (by omega)
      have hoff : ((pos.adv (d.DecodeRune b).1 (d.DecodeRune b).2.toNat).Offset : Int) =
          (pos.Offset : Int) + (d.DecodeRune b).2 := by
        rw [adv_offset pos (d.DecodeRune b).1 (d.DecodeRune b).2.toNat (by omega)]
        push_cast
        omega
      have ihb := ih (b.drop (d.DecodeRune b).2.toNat)
        (pos.adv (d.DecodeRune b).1 (d.DecodeRune b).2.toNat)
      cases hdl : decodeLoopF d f (b.drop (d.DecodeRune b).2.toNat)
          (pos.adv (d.DecodeRune b).1 (d.DecodeRune b).2.toNat) with
      | mk us rp =>
        rw [hdl] at ihb
        dsimp only at ihb ⊢
        constructor
        · intro i c hc
          cases i with
          | zero =>
            simp only [List.getElem?_cons_zero] at hc
            injection hc with hc
            subst hc
            refine ⟨rfl, h.2.1, by simp [sumSizes]⟩
          | succ j =>
            simp only [List.getElem?_cons_succ] at hc
            have hj := ihb.1 j c hc
            refine ⟨hj.1, hj.2.1, ?_⟩
            rw [List.take_succ_cons]
            simp only [sumSizes]
            rw [hj.2.2, hoff]
            omega
        · rw [ihb.2, hoff]
          simp only [sumSizes]
          omega
    · rw [if_neg h]
      refine ⟨?_, by simp [sumSizes]⟩
      intro i c hc
      simp at hc

/-- Wrapper of the offset bookkeeping for `decodeLoop`. -/
theorem decodeLoop_offsets (d : Decoder) (b : List Nat) (pos : Position) :
    (∀ i c, (decodeLoop d b pos).1[i]? = some c →
      c.err = none ∧ 1 ≤ c.size ∧
      (c.pos.Offset : Int) = pos.Offset + sumSizes ((decodeLoop d b pos).1.take i)) ∧
    ((decodeLoop d b pos).2.2.Offset : Int) = pos.Offset + sumSizes (decodeLoop d b pos).1 :=
  decodeLoopF_offsets d b.length b pos

/-- Extending a log that satisfies the offset invariant by a block of
decoded runes (recorded from the tracker's offset onward) and at most
one terminal marker (recorded at the final offset, with size 0)
preserves the invariant. -/
theorem bufInv_extend {L : LoadState} (r' : List ReadResult) (b' : List Nat)
    (us T : List savedRune) (pnew : Position)
    (hI : bufInv L)
    (hus : ∀ i c, us[i]? = some c → c.err = none ∧ 1 ≤ c.size ∧
      (c.pos.Offset : Int) = L.pos.Offset + sumSizes (us.take i))
    (hpnew : (pnew.Offset : Int) = L.pos.Offset + sumSizes us)
    (hT : T = [] ∨ ∃ c, T = [c] ∧ c.pos = pnew ∧ c.size = 0 ∧ c.err.isSome = true) :
    bufInv { r := r', b := b', pos := pnew, buf := L.buf ++ us ++ T } := by
  have hsumT : sumSizes T = 0 := by
    rcases hT with hT | ⟨c, hT, _, hsz, _⟩
    · rw [hT]; rfl
    · rw [hT]; simp [sumSizes, hsz]
  constructor
  · intro i c hc
    dsimp only at hc ⊢
    rw [List.append_assoc] at hc ⊢
    by_cases hi : i < L.buf.length
    · rw [get?_append_left _ _ _ hi] at hc
      have := hI.1 i c hc
      rw [take_append_left _ _ _ (Nat.le_of_lt hi)]
      exact this
    · obtain ⟨j, rfl⟩ : ∃ j, i = L.buf.length + j :=
        ⟨i - L.buf.length, by omega⟩
      rw [get?_append_right] at hc
      rw [take_append_add, sumSizes_append]
      by_cases hj : j < us.length
      · rw [get?_append_left _ _ _ hj] at hc
        have hu := hus j c hc
        rw [take_append_left _ _ _ (Nat.le_of_lt hj)]
        refine ⟨fun _ => hu.2.1, ?_⟩
        rw [hu.2.2, hI.2]
      · obtain ⟨j', rfl⟩ : ∃ j', j = us.length + j' :=
          ⟨j - us.length, by omega⟩
        rw [get?_append_right] at hc
        rcases hT with hT | ⟨c0, hT, hpos, hsz, herr⟩
        · rw [hT] at hc; simp at hc
        · rw [hT] at hc
          cases j' with
          | zero =>
            simp only [List.getElem?_cons_zero] at hc
            injection hc with hc
            subst hc
            constructor
            · intro hen
              rw [hen] at herr
              exact Bool.noConfusion herr
            · rw [hpos, hpnew, hI.2]
              simp [sumSizes_append]
          | succ j'' => simp at hc
  · dsimp only
    rw [List.append_assoc, sumSizes_append, sumSizes_append, hsumT, hpnew, hI.2]
    omega

/-- A load step preserves the offset invariant. -/
theorem loadStep_bufInv {d : Decoder} {bs : Nat} {L L' : LoadState}
    (hI : bufInv L) (h : loadStep d bs L = some L') : bufInv L' := by
  unfold loadStep at h
  by_cases hc : 0x40000000 ≤ L.buf.length
  · rw [if_pos hc] at h; exact Option.noConfusion h
  · rw [if_neg hc] at h
    injection h with h
    subst h
    have hofs := decodeLoop_offsets d (L.b ++ (readOne L.r bs).1.bytes) L.pos
    cases herr : (readOne L.r bs).1.err with
    | none =>
      simp only [herr]
      exact bufInv_extend _ _ _ _ _ hI hofs.1 hofs.2 (Or.inl rfl)
    | some e =>
      simp only [herr]
      exact bufInv_extend _ _ _ _ _ hI hofs.1 hofs.2
        (Or.inr ⟨_, rfl, rfl, rfl, rfl⟩)

/-- An advance preserves the offset invariant of the load-engine
state. -/
theorem advance_bufInv {s : RuneStream} {ok : Bool} {t : RuneStream}
    (h : s.Advance = some (ok, t)) (hI : bufInv s.lp) : bufInv t.lp := by
  unfold RuneStream.Advance at h
  by_cases ht : s.currTerminal
  · rw [if_pos ht] at h
    injection h with h
    injection h with h1 h2
    subst h2
    exact hI
  · rw [if_neg ht] at h
    by_cases hl : s.buf.length ≤ s.spec
    · rw [if_pos hl] at h
      cases hload : s.load with
      | none => rw [hload] at h; exact Option.noConfusion h
      | some s1 =>
        rw [hload] at h
        simp only at h
        cases hget : s1.buf[s.spec]? with
        | none => rw [hget] at h; exact Option.noConfusion h
        | some c =>
          rw [hget] at h
          injection h with h
          injection h with h1 h2
          subst h2
          unfold RuneStream.load at hload
          cases hls : loadStep s.d s.bs s.lp with
          | none => rw [hls] at hload; exact Option.noConfusion hload
          | some L =>
            rw [hls] at hload
            injection hload with hload
            subst hload
            exact loadStep_bufInv hI hls
    · rw [if_neg hl] at h
      simp only at h
      cases hget : s.buf[s.spec]? with
      | none => rw [hget] at h; exact Option.noConfusion h
      | some c =>
        rw [hget] at h
        injection h with h
        injection h with h1 h2
        subst h2
        exact hI

/-- Iterated advances preserve the offset invariant. -/
theorem advanceN_bufInv {s t : RuneStream} {n : Nat}
    (h : advanceN s n = some t) (hI : bufInv s.lp) : bufInv t.lp := by
  induction n generalizing s with
  | zero =>
    simp only [advanceN] at h
    injection h with h
    subst h
    exact hI
  | succ n ih =>
    simp only [advanceN] at h
    cases hadv : s.Advance with
    | none => rw [hadv] at h; exact Option.noConfusion h
    | some p =>
      rw [hadv] at h
      cases p with
      | mk ok u => exact ih h (advance_bufInv hadv hI)

/-- A freshly constructed stream satisfies the offset invariant. -/
theorem new_bufInv {src : List ReadResult} {o : Options} {s : RuneStream}
    (h : RuneStream.New src o = some s) : bufInv s.lp := by
  unfold RuneStream.New at h
  by_cases hb : o.BlockSize < 0
  · rw [if_pos hb] at h; exact Option.noConfusion h
  · rw [if_neg hb] at h
    simp only at h
    by_cases hm : (o.OptDecoder.getD UTF8Decoder).Max < 1
    · rw [if_pos hm] at h; exact Option.noConfusion h
    · rw [if_neg hm] at h
      injection h with h
      subst h
      constructor
      · intro i c hc
        simp [RuneStream.lp] at hc
      · rfl

/-- Claim C6: on a freshly initialized stream with the default UTF-8
decoder, after any number of advances, every successfully decoded
saved unit has size at least 1 and every saved unit's recorded byte
offset equals the sum of the sizes of the units logged before it (so
the first unit's offset is 0 and cumulative size sums equal byte
offsets). -/
theorem C6_offsets_cumulative :
    ∀ (src : List ReadResult) (s0 : RuneStream) (n : Nat) (s : RuneStream),
      RuneStream.New src { BlockSize := 0, OptDecoder := none } = some s0 →
      advanceN s0 n = some s →
      ∀ i c, s.buf[i]? = some c →
        (c.err = none → 1 ≤ c.size) ∧ (c.pos.Offset : Int) = sumSizes (s.buf.take i) := by
  intro src s0 n s hnew hadv i c hc
  have hI : bufInv s.lp := advanceN_bufInv hadv (new_bufInv hnew)
  exact hI.1 i c hc

/-- Witness for C6: in the concrete run over bytes 65, 0xC3 0xB1, 66
(sizes 1, 2, 1), the third unit is recorded at offset 3 = 1 + 2 and
has size at least 1, by the theorem applied to that run. -/
theorem C6_offsets_cumulative_witness :
    (c6unit.err = none → 1 ≤ c6unit.size) ∧
    (c6unit.pos.Offset : Int) = sumSizes (c6run.buf.take 2) :=
  C6_offsets_cumulative
    [{ bytes := [65, 0xC3, 0xB1, 66], err := none }, { bytes := [], err := some 0 }]
    c6s0 4 c6run rfl rfl 2 c6unit rfl

/-- Case classification of the UTF-8 first-byte table: each byte falls
in exactly one row, with the table value spelled out. -/
theorem utf8SizeCode_classify (b : Nat) :
    (b ≤ 0x7F ∧ utf8SizeCode b = 0xF0) ∨
    ((0x80 ≤ b ∧ b ≤ 0xC1 ∨ 0xF5 ≤ b) ∧ utf8SizeCode b = 0xF1) ∨
    (0xC2 ≤ b ∧ b ≤ 0xDF ∧ utf8SizeCode b = 0x02) ∨
    (b = 0xE0 ∧ utf8SizeCode b = 0x13) ∨
    ((0xE1 ≤ b ∧ b ≤ 0xEC ∨ 0xEE ≤ b ∧ b ≤ 0xEF) ∧ utf8SizeCode b = 0x03) ∨
    (b = 0xED ∧ utf8SizeCode b = 0x23) ∨
    (b = 0xF0 ∧ utf8SizeCode b = 0x34) ∨
    (0xF1 ≤ b ∧ b ≤ 0xF3 ∧ utf8SizeCode b = 0x04) ∨
    (b = 0xF4 ∧ utf8SizeCode b = 0x44) := by
  unfold utf8SizeCode
  by_cases h1 : b ≤ 0x7F
  · rw [if_pos h1]; omega
  rw [if_neg h1]
  by_cases h2 : b ≤ 0xC1
  · rw [if_pos h2]; omega
  rw [if_neg h2]
  by_cases h3 : b ≤ 0xDF
  · rw [if_pos h3]; omega
  rw [if_neg h3]
  by_cases h4 : b = 0xE0
  · rw [if_pos h4]; omega
  rw [if_neg h4]
  by_cases h5 : b ≤ 0xEC
  · rw [if_pos h5]; omega
  rw [if_neg h5]
  by_cases h6 : b = 0xED
  · rw [if_pos h6]; omega
  rw [if_neg h6]
  by_cases h7 : b ≤ 0xEF
  · rw [if_pos h7]; omega
  rw [if_neg h7]
  by_cases h8 : b = 0xF0
  · rw [if_pos h8]; omega
  rw [if_neg h8]
  by_cases h9 : b ≤ 0xF3
  · rw [if_pos h9]; omega
  rw [if_neg h9]
  by_cases h10 : b = 0xF4
  · rw [if_pos h10]; omega
  rw [if_neg h10]
  omega

theorem utf8DecodeRune_size_bounds (p : List Nat) (hne : p ≠ []) :
    1 ≤ (utf8DecodeRune p).2 ∧ (utf8DecodeRune p).2.toNat ≤ p.length := by
  cases p with
  | nil => exact absurd rfl hne
  | cons b0 rest =>
    rcases utf8SizeCode_classify b0 with ⟨hr, hc⟩|⟨hr, hc⟩|⟨hr1, hr2, hc⟩|⟨hr, hc⟩|⟨hr, hc⟩|⟨hr, hc⟩|⟨hr, hc⟩|⟨hr1, hr2, hc⟩|⟨hr, hc⟩ <;>
      simp only [utf8DecodeRune, hc] <;>
      rcases rest with _ | ⟨b1, _ | ⟨b2, _ | ⟨b3, r4⟩⟩⟩ <;>
      simp [utf8AcceptLo, utf8AcceptHi] <;>
      split_ifs <;>
      simp_all <;>
      omega

theorem utf8DecodeRune_invalid (p : List Nat) (hfull : utf8FullRune p = true)
    (hval : utf8ValidFirst p = false) : utf8DecodeRune p = (0xFFFD, 1) := by
  cases p with
  | nil => simp [utf8FullRune] at hfull
  | cons b0 rest =>
    rcases utf8SizeCode_classify b0 with ⟨hr, hc⟩|⟨hr, hc⟩|⟨hr1, hr2, hc⟩|⟨hr, hc⟩|⟨hr, hc⟩|⟨hr, hc⟩|⟨hr, hc⟩|⟨hr1, hr2, hc⟩|⟨hr, hc⟩
    · simp only [utf8ValidFirst] at hval
      rw [if_pos hr] at hval
      exact Bool.noConfusion hval
    · simp only [utf8DecodeRune, hc]
      norm_num [utf8RuneError]
    · -- 2-byte, 0xC2 <= b0 <= 0xDF
      simp only [utf8DecodeRune, hc]
      norm_num [utf8AcceptLo, utf8AcceptHi, utf8RuneError]
      rcases rest with _ | ⟨b1, r2⟩
      · simp
      · intro _hlen
        by_cases hb1 : b1 < 128 ∨ 191 < b1
        · simp [hb1]
        · exfalso
          have hvv : utf8ValidFirst (b0 :: b1 :: r2) = utf8Cont b1 := by
            simp only [utf8ValidFirst]
            rw [if_neg (by omega), if_pos ⟨hr1, hr2⟩]
          rw [hvv] at hval
          simp only [utf8Cont, Bool.and_eq_false_iff, decide_eq_false_iff_not] at hval
          omega
    · -- 0xE0
      subst hr
      simp only [utf8DecodeRune, utf8SizeCode]
      norm_num [utf8AcceptLo, utf8AcceptHi, utf8RuneError]
      rcases rest with _ | ⟨b1, _ | ⟨b2, r3⟩⟩
      · simp
      · simp
      · intro _hlen
        by_cases hb1 : b1 < 160 ∨ 191 < b1
        · simp [hb1]
        · by_cases hb2 : b2 < 128 ∨ 191 < b2
          · simp [hb1, hb2]
          · exfalso
            simp only [utf8ValidFirst] at hval
            norm_num [utf8Cont] at hval
            omega
    · -- 0xE1..0xEC or 0xEE..0xEF
      simp only [utf8DecodeRune, hc]
      norm_num [utf8AcceptLo, utf8AcceptHi, utf8RuneError]
      rcases rest with _ | ⟨b1, _ | ⟨b2, r3⟩⟩
      · simp
      · simp
      · intro _hlen
        by_cases hb1 : b1 < 128 ∨ 191 < b1
        · simp [hb1]
        · by_cases hb2 : b2 < 128 ∨ 191 < b2
          · simp [hb1, hb2]
          · exfalso
            have hvv : utf8ValidFirst (b0 :: b1 :: b2 :: r3) = (utf8Cont b1 && utf8Cont b2) := by
              simp only [utf8ValidFirst]
              rcases hr with ⟨ha, hb⟩ | ⟨ha, hb⟩
              · rw [if_neg (by omega), if_neg (by omega), if_neg (by omega),
                  if_pos ⟨ha, hb⟩]
              · rw [if_neg (by omega), if_neg (by omega), if_neg (by omega),
                  if_neg (by omega), if_neg (by omega), if_pos ⟨ha, hb⟩]
            rw [hvv] at hval
            simp only [utf8Cont, Bool.and_eq_false_iff, decide_eq_false_iff_not] at hval
            omega
    · -- 0xED
      subst hr
      simp only [utf8DecodeRune, utf8SizeCode]
      norm_num [utf8AcceptLo, utf8AcceptHi, utf8RuneError]
      rcases rest with _ | ⟨b1, _ | ⟨b2, r3⟩⟩
      · simp
      · simp
      · intro _hlen
        by_cases hb1 : b1 < 128 ∨ 159 < b1
        · simp [hb1]
        · by_cases hb2 : b2 < 128 ∨ 191 < b2
          · simp [hb1, hb2]
          · exfalso
            simp only [utf8ValidFirst] at hval
            norm_num [utf8Cont] at hval
            omega
    · -- 0xF0
      subst hr
      simp only [utf8DecodeRune, utf8SizeCode]
      norm_num [utf8AcceptLo, utf8AcceptHi, utf8RuneError]
      rcases rest with _ | ⟨b1, _ | ⟨b2, _ | ⟨b3, r4⟩⟩⟩
      · simp
      · simp
      · simp
      · intro _hlen
        by_cases hb1 : b1 < 144 ∨ 191 < b1
        · simp [hb1]
        · by_cases hb2 : b2 < 128 ∨ 191 < b2
          · simp [hb1, hb2]
          · by_cases hb3 : b3 < 128 ∨ 191 < b3
            · simp [hb1, hb2, hb3]
            · exfalso
              simp only [utf8ValidFirst] at hval
              norm_num [utf8Cont] at hval
              omega
    · -- 0xF1..0xF3
      simp only [utf8DecodeRune, hc]
      norm_num [utf8AcceptLo, utf8AcceptHi, utf8RuneError]
      rcases rest with _ | ⟨b1, _ | ⟨b2, _ | ⟨b3, r4⟩⟩⟩
      · simp
      · simp
      · simp
      · intro _hlen
        by_cases hb1 : b1 < 128 ∨ 191 < b1
        · simp [hb1]
        · by_cases hb2 : b2 < 128 ∨ 191 < b2
          · simp [hb1, hb2]
          · by_cases hb3 : b3 < 128 ∨ 191 < b3
            · simp [hb1, hb2, hb3]
            · exfalso
              have hvv : utf8ValidFirst (b0 :: b1 :: b2 :: b3 :: r4) =
                  (utf8Cont b1 && utf8Cont b2 && utf8Cont b3) := by
                simp only [utf8ValidFirst]
                rw [if_neg (by omega), if_neg (by omega), if_neg (by omega),
                  if_neg (by omega), if_neg (by omega), if_neg (by omega),
                  if_neg (by omega), if_pos ⟨hr1, hr2⟩]
              rw [hvv] at hval
              simp only [utf8Cont, Bool.and_eq_false_iff, decide_eq_false_iff_not] at hval
              omega
    · -- 0xF4
      subst hr
      simp only [utf8DecodeRune, utf8SizeCode]
      norm_num [utf8AcceptLo, utf8AcceptHi, utf8RuneError]
      rcases rest with _ | ⟨b1, _ | ⟨b2, _ | ⟨b3, r4⟩⟩⟩
      · simp
      · simp
      · simp
      · intro _hlen
        by_cases hb1 : b1 < 128 ∨ 143 < b1
        · simp [hb1]
        · by_cases hb2 : b2 < 128 ∨ 191 < b2
          · simp [hb1, hb2]
          · by_cases hb3 : b3 < 128 ∨ 191 < b3
            · simp [hb1, hb2, hb3]
            · exfalso
              simp only [utf8ValidFirst] at hval
              norm_num [utf8Cont] at hval
              omega

/-- Helper: a list member is found at some index. -/
theorem mem_get? {α : Type} {l : List α} {u : α} (h : u ∈ l) : ∃ i : Nat, l[i]? = some u := by
  induction l with
  | nil => cases h
  | cons a t ih =>
    rcases List.mem_cons.mp h with rfl | h1
    · exact ⟨0, by simp⟩
    · obtain ⟨i, hi⟩ := ih h1
      exact ⟨i + 1, by simpa using hi⟩

/-- When a read reports no error, a load step appends only successful
units: terminal markers enter the log exclusively on a source error,
never from undecodable bytes. -/
theorem loadStep_no_terminal {d : Decoder} {bs : Nat} {L L' : LoadState}
    (h : loadStep d bs L = some L') (herr : (readOne L.r bs).1.err = none) :
    ∀ u ∈ L'.buf, u ∈ L.buf ∨ u.err = none := by
  unfold loadStep at h
  by_cases hc : 0x40000000 ≤ L.buf.length
  · rw [if_pos hc] at h; exact Option.noConfusion h
  · rw [if_neg hc] at h
    injection h with h
    subst h
    intro u hu
    simp only [herr, List.append_nil] at hu
    rcases List.mem_append.mp hu with hu1 | hu2
    · exact Or.inl hu1
    · obtain ⟨i, hi⟩ := mem_get? hu2
      exact Or.inr ((decodeLoop_offsets d (L.b ++ (readOne L.r bs).1.bytes) L.pos).1 i u hi).1

/-- Claim C10: with the default UTF-8 decoder, undecodable bytes never
produce a terminal error and never stall the stream: whenever
`FullRune` holds, `DecodeRune` consumes at least one byte (and no more
than are present); an invalid encoding decodes as the replacement
character U+FFFD with size 1; terminal markers are appended only on a
source error, never by the decode loop; and over the concrete
malformed input 0xFF 0x80, `Advance` returns true twice with
unit U+FFFD, size 1, before end of data. -/
theorem C10_utf8_malformed_no_error :
    (∀ p : List Nat, utf8FullRune p = true →
      1 ≤ (utf8DecodeRune p).2 ∧ (utf8DecodeRune p).2.toNat ≤ p.length) ∧
    (∀ p : List Nat, utf8FullRune p = true → utf8ValidFirst p = false →
      utf8DecodeRune p = (0xFFFD, 1)) ∧
    (∀ (d : Decoder) (bs : Nat) (L L' : LoadState), loadStep d bs L = some L' →
      (readOne L.r bs).1.err = none → ∀ u ∈ L'.buf, u ∈ L.buf ∨ u.err = none) ∧
    ((RuneStream.New [{ bytes := [0xFF, 0x80], err := none }, { bytes := [], err := some 3 }]
        { BlockSize := 0, OptDecoder := none }).bind (fun s => traceA s 3) =
      some [(true, some (0xFFFD, 1, { Offset := 0, Line := 1, Column := 1, SkipNextLF := false })),
        (true, some (0xFFFD, 1, { Offset := 1, Line := 1, Column := 2, SkipNextLF := false })),
        (false, some (0, 0, { Offset := 2, Line := 1, Column := 3, SkipNextLF := false }))]) := by
  refine ⟨?_, ?_, ?_, by decide⟩
  · intro p hf
    refine utf8DecodeRune_size_bounds p ?_
    intro he
    subst he
    simp [utf8FullRune] at hf
  · exact utf8DecodeRune_invalid
  · intro d bs L L' h herr
    exact loadStep_no_terminal h herr

/-- Witness for C10: the single invalid byte 0xFF is a full rune,
is not a valid encoding, and decodes as (U+FFFD, 1). -/
theorem C10_utf8_malformed_no_error_witness :
    (1 ≤ (utf8DecodeRune [0xFF]).2 ∧ (utf8DecodeRune [0xFF]).2.toNat ≤ 1) ∧
    utf8DecodeRune [0xFF] = (0xFFFD, 1) :=
  ⟨C10_utf8_malformed_no_error.1 [0xFF] (by decide),
    C10_utf8_malformed_no_error.2.1 [0xFF] (by decide) (by decide)⟩

/-- Claim C1 (failing trace): on a source that keeps reporting error 1
with no data, the first `Advance` appends the terminal unit (log
length 1, one read consumed) and returns false; but after `Save` at
the terminal unit and `Restore`, the next `Advance` re-invokes the
source's read (the remaining read result is consumed: 1 becomes 0)
and appends a second entry after the terminal unit (log length 2), so
the terminal unit is no longer the last log entry and the source was
read again, contradicting the claim. -/
theorem C1_terminal_restore_rereads :
    c1s0.Advance.map (fun p => p.1) = some false ∧
    c1s1.buf.length = 1 ∧
    (c1s1.buf[0]?).map (fun u => u.err) = some (some 1) ∧
    c1s1.r.length = 1 ∧
    c1s2.Advance.map (fun p => p.1) = some false ∧
    c1s2.Advance.map (fun p => p.2.buf.length) = some 2 ∧
    c1s2.Advance.map (fun p => p.2.r.length) = some 0 := by
  decide

/-- Streams with equal current units agree on the sticky-failure test. -/
theorem currTerminal_congr {x y : RuneStream} (h : x.curr = y.curr) :
    x.currTerminal = y.currTerminal := by
  unfold RuneStream.currTerminal
  rw [h]

/-- Helper: an in-bounds index has a lookup value. -/
theorem get?_of_lt {α : Type} {l : List α} {i : Nat} (h : i < l.length) :
    ∃ c, l[i]? = some c := by
  cases hc : l[i]? with
  | none => rw [List.getElem?_eq_none_iff] at hc; omega
  | some c => exact ⟨c, rfl⟩

/-- Writing a load-engine state into a stream and projecting it back is the identity. -/
theorem setLp_lp (s : RuneStream) (L : LoadState) : (s.setLp L).lp = L := rfl

/-- A successful load comes from a successful pure load step written back into the stream. -/
theorem load_eq_some {s t : RuneStream} (h : s.load = some t) :
    ∃ L, loadStep s.d s.bs s.lp = some L ∧ t = s.setLp L := by
  unfold RuneStream.load at h
  cases hls : loadStep s.d s.bs s.lp with
  | none => rw [hls] at h; exact Option.noConfusion h
  | some L =>
    rw [hls] at h
    injection h with h
    exact ⟨L, rfl, h.symm⟩

/-- A panicking pure load step makes the load panic. -/
theorem load_eq_none {s : RuneStream} (h : loadStep s.d s.bs s.lp = none) :
    s.load = none := by
  unfold RuneStream.load
  rw [h]
  rfl

/-- Advance on a terminal current unit: false, state unchanged, no load. -/
theorem advance_sticky {s : RuneStream} (h : s.currTerminal = true) :
    s.Advance = some (false, s) := by
  unfold RuneStream.Advance
  rw [if_pos h]

/-- Advance with the speculative index inside the log: no load, the indexed unit becomes current. -/
theorem advance_noload {s : RuneStream} {c : savedRune} (h1 : s.currTerminal = false)
    (h2 : s.spec < s.buf.length) (hc : s.buf[s.spec]? = some c) :
    s.Advance = some (c.err.isNone, { s with curr := some c, spec := s.spec + 1 }) := by
  unfold RuneStream.Advance
  rw [if_neg (by simp [h1]), if_neg (by omega)]
  simp only [hc]

/-- Advance at the end of the log: one load step, then the indexed unit becomes current. -/
theorem advance_load {s : RuneStream} {L : LoadState} {c : savedRune}
    (h1 : s.currTerminal = false) (h2 : s.buf.length ≤ s.spec)
    (h3 : loadStep s.d s.bs s.lp = some L) (hc : L.buf[s.spec]? = some c) :
    s.Advance = some (c.err.isNone, { s.setLp L with curr := some c, spec := s.spec + 1 }) := by
  unfold RuneStream.Advance
  rw [if_neg (by simp [h1]), if_pos h2]
  have hl : s.load = some (s.setLp L) := by
    unfold RuneStream.load
    rw [h3]
    rfl
  rw [hl]
  simp only
  have : (s.setLp L).buf = L.buf := rfl
  rw [this, hc]

/-- Advance panics when the load step hits the log ceiling. -/
theorem advance_load_panic {s : RuneStream} (h1 : s.currTerminal = false)
    (h2 : s.buf.length ≤ s.spec) (h3 : loadStep s.d s.bs s.lp = none) :
    s.Advance = none := by
  unfold RuneStream.Advance
  rw [if_neg (by simp [h1]), if_pos h2, load_eq_none h3]

/-- Advance panics when the load produced nothing to index (the source made no progress and reported no error). -/
theorem advance_load_idx_panic {s : RuneStream} {L : LoadState}
    (h1 : s.currTerminal = false) (h2 : s.buf.length ≤ s.spec)
    (h3 : loadStep s.d s.bs s.lp = some L) (hc : L.buf[s.spec]? = none) :
    s.Advance = none := by
  unfold RuneStream.Advance
  rw [if_neg (by simp [h1]), if_pos h2]
  have hl : s.load = some (s.setLp L) := by
    unfold RuneStream.load
    rw [h3]
    rfl
  rw [hl]
  simp only
  have : (s.setLp L).buf = L.buf := rfl
  rw [this, hc]

/-- Peeling the first of an iterated sequence of load steps. -/
theorem loadIterP_cons {d : Decoder} {bs : Nat} {L L1 : LoadState} {k : Nat}
    (h : loadStep d bs L = some L1) :
    loadIterP d bs L (k + 1) = loadIterP d bs L1 k := by
  simp only [loadIterP, h]

/-- A load step only appends to the log. -/
theorem loadStep_buf {d : Decoder} {bs : Nat} {L L1 : LoadState}
    (h : loadStep d bs L = some L1) : ∃ u, L1.buf = L.buf ++ u := by
  unfold loadStep at h
  by_cases hc : 0x40000000 ≤ L.buf.length
  · rw [if_pos hc] at h; exact Option.noConfusion h
  · rw [if_neg hc] at h
    injection h with h
    subst h
    exact ⟨_, by rw [List.append_assoc]⟩

/-- Iterated load steps only append to the log. -/
theorem loadIterP_buf {d : Decoder} {bs : Nat} {L L' : LoadState} {k : Nat}
    (h : loadIterP d bs L k = some L') : ∃ us, L'.buf = L.buf ++ us := by
  induction k generalizing L with
  | zero =>
    simp only [loadIterP] at h
    injection h with h
    subst h
    exact ⟨[], by simp⟩
  | succ k ih =>
    simp only [loadIterP] at h
    cases hls : loadStep d bs L with
    | none => rw [hls] at h; exact Option.noConfusion h
    | some L1 =>
      rw [hls] at h
      obtain ⟨us2, hus2⟩ := ih h
      obtain ⟨u1, hu1⟩ := loadStep_buf hls
      exact ⟨u1 ++ us2, by rw [hus2, hu1, List.append_assoc]⟩

/-- The empty chain. -/
theorem loadChain_zero (d : Decoder) (bs : Nat) (L : LoadState) : loadChain d bs L 0 := by
  intro i hi
  omega

/-- Dropping the first load of a validated chain. -/
theorem loadChain_shift {d : Decoder} {bs : Nat} {L L1 : LoadState} {k : Nat}
    (hch : loadChain d bs L (k + 1)) (h : loadStep d bs L = some L1) :
    loadChain d bs L1 k := by
  intro i hi
  obtain ⟨a, a', ha, ha', hgrow⟩ := hch (i + 1) (by omega)
  rw [loadIterP_cons h] at ha
  exact ⟨a, a', ha, ha', hgrow⟩

/-- Prepending a validated load to a chain. -/
theorem loadChain_cons {d : Decoder} {bs : Nat} {L L1 : LoadState} {k : Nat}
    (h : loadStep d bs L = some L1) (hgrow : L.buf.length < L1.buf.length)
    (hch : loadChain d bs L1 k) : loadChain d bs L (k + 1) := by
  intro i hi
  cases i with
  | zero => exact ⟨L, L1, rfl, h, hgrow⟩
  | succ j =>
    obtain ⟨a, a', ha, ha', hg⟩ := hch j (by omega)
    refine ⟨a, a', ?_, ha', hg⟩
    rw [loadIterP_cons h]
    exact ha

/-- One advance either leaves the load-engine state alone or performs exactly one pure load step that strictly lengthens the log (strict because the subsequent log index succeeded). -/
theorem advance_lp {s : RuneStream} {r : Bool} {t : RuneStream}
    (h : s.Advance = some (r, t)) :
    t.lp = s.lp ∨ (loadStep s.d s.bs s.lp = some t.lp ∧ s.buf.length < t.buf.length) := by
  unfold RuneStream.Advance at h
  by_cases ht : s.currTerminal
  · rw [if_pos ht] at h
    injection h with h
    injection h with h1 h2
    subst h2
    exact Or.inl rfl
  · rw [if_neg ht] at h
    by_cases hl : s.buf.length ≤ s.spec
    · rw [if_pos hl] at h
      cases hload : s.load with
      | none => rw [hload] at h; exact Option.noConfusion h
      | some s1 =>
        rw [hload] at h
        simp only at h
        cases hget : s1.buf[s.spec]? with
        | none => rw [hget] at h; exact Option.noConfusion h
        | some c =>
          rw [hget] at h
          injection h with h
          injection h with h1 h2
          subst h2
          obtain ⟨L, hL, hs1⟩ := load_eq_some hload
          subst hs1
          refine Or.inr ⟨hL, ?_⟩
          have := get?_some_lt hget
          have hb : (s.setLp L).buf = L.buf := rfl
          rw [hb] at this
          have hb2 : ({ s.setLp L with curr := some c, spec := s.spec + 1 }).buf = L.buf := rfl
          rw [hb2]
          omega
    · rw [if_neg hl] at h
      simp only at h
      cases hget : s.buf[s.spec]? with
      | none => rw [hget] at h; exact Option.noConfusion h
      | some c =>
        rw [hget] at h
        injection h with h
        injection h with h1 h2
        subst h2
        exact Or.inl rfl

/-- An advance keeps the speculative index within the log. -/
theorem advance_spec_le {s : RuneStream} {r : Bool} {t : RuneStream}
    (h : s.Advance = some (r, t)) (hs : s.spec ≤ s.buf.length) :
    t.spec ≤ t.buf.length := by
  unfold RuneStream.Advance at h
  by_cases ht : s.currTerminal
  · rw [if_pos ht] at h
    injection h with h
    injection h with h1 h2
    subst h2
    exact hs
  · rw [if_neg ht] at h
    by_cases hl : s.buf.length ≤ s.spec
    · rw [if_pos hl] at h
      cases hload : s.load with
      | none => rw [hload] at h; exact Option.noConfusion h
      | some s1 =>
        rw [hload] at h
        simp only at h
        cases hget : s1.buf[s.spec]? with
        | none => rw [hget] at h; exact Option.noConfusion h
        | some c =>
          rw [hget] at h
          injection h with h
          injection h with h1 h2
          subst h2
          have := get?_some_lt hget
          show s.spec + 1 ≤ s1.buf.length
          omega
    · rw [if_neg hl] at h
      simp only at h
      cases hget : s.buf[s.spec]? with
      | none => rw [hget] at h; exact Option.noConfusion h
      | some c =>
        rw [hget] at h
        injection h with h
        injection h with h1 h2
        subst h2
        have := get?_some_lt hget
        show s.spec + 1 ≤ s.buf.length
        omega

/-- A panic-free run of advances preserves the decoder, block size and generation, keeps the speculative index within the log, and its loads form a validated chain from the starting load-engine state. -/
theorem advanceN_run {s t : RuneStream} {n : Nat} (h : advanceN s n = some t) :
    t.d = s.d ∧ t.bs = s.bs ∧ t.gen = s.gen ∧
    (s.spec ≤ s.buf.length → t.spec ≤ t.buf.length) ∧
    ∃ k, loadIterP s.d s.bs s.lp k = some t.lp ∧ loadChain s.d s.bs s.lp k := by
  induction n generalizing s with
  | zero =>
    simp only [advanceN] at h
    injection h with h
    subst h
    exact ⟨rfl, rfl, rfl, fun hh => hh, 0, rfl, loadChain_zero _ _ _⟩
  | succ n ih =>
    simp only [advanceN] at h
    cases hadv : s.Advance with
    | none => rw [hadv] at h; exact Option.noConfusion h
    | some p =>
      rw [hadv] at h
      cases p with
      | mk r u =>
        have hfields := advance_fields hadv
        have hstep := advance_lp hadv
        obtain ⟨hd, hbs, hg, hsp, k, hiter, hchain⟩ := ih h
        rw [hfields.2.1, hfields.2.2] at hiter hchain
        refine ⟨hd.trans hfields.2.1, hbs.trans hfields.2.2, hg.trans hfields.1,
          fun hse => hsp (advance_spec_le hadv hse), ?_⟩
        rcases hstep with heq | ⟨hload, hgrow⟩
        · rw [heq] at hiter hchain
          exact ⟨k, hiter, hchain⟩
        · refine ⟨k + 1, ?_, ?_⟩
          · rw [loadIterP_cons hload]
            exact hiter
          · exact loadChain_cons hload hgrow hchain

/-- A cleared current unit is not terminal. -/
theorem currTerminal_none {x : RuneStream} (h : x.curr = none) :
    x.currTerminal = false := by
  simp [RuneStream.currTerminal, h]

/-- One-step simulation for Save/Restore determinism: related streams either both panic on the next advance, or return the same value with the same new current unit and stay related.  The restored run answers from its pre-loaded log exactly where the plain run performs the loads its chain has already validated. -/
theorem sim_step {x y : RuneStream} (hsim : Sim x y) :
    (x.Advance = none ∧ y.Advance = none) ∨
    (∃ r x' y', x.Advance = some (r, x') ∧ y.Advance = some (r, y') ∧
      x'.curr = y'.curr ∧ Sim x' y') := by
  obtain ⟨hd, hbs, hgen, hspec, hsle, ⟨k, hiter, hchain⟩, hcurr⟩ := hsim
  by_cases hyt : y.currTerminal = true
  · rcases hcurr with hcc | ⟨hxn, hyf⟩
    · have hxt : x.currTerminal = true := (currTerminal_congr hcc).trans hyt
      right
      exact ⟨false, x, y, advance_sticky hxt, advance_sticky hyt, hcc,
        hd, hbs, hgen, hspec, hsle, ⟨k, hiter, hchain⟩, Or.inl hcc⟩
    · rw [hyf] at hyt
      exact Bool.noConfusion hyt
  · have hyt' : y.currTerminal = false := by simpa using hyt
    have hxt : x.currTerminal = false := by
      rcases hcurr with hcc | ⟨hxn, _⟩
      · rw [currTerminal_congr hcc]
        exact hyt'
      · exact currTerminal_none hxn
    by_cases hk : k = 0
    · subst hk
      have hlp : x.lp = y.lp := by
        simp only [loadIterP] at hiter
        injection hiter with hiter
        exact hiter.symm
      have hbuf : x.buf = y.buf := congrArg LoadState.buf hlp
      by_cases hlt : y.spec < y.buf.length
      · obtain ⟨c, hc⟩ := get?_of_lt hlt
        have hcx : x.buf[x.spec]? = some c := by rw [hbuf, hspec]; exact hc
        right
        refine ⟨c.err.isNone, _, _,
          advance_noload hxt (by rw [hspec]; rw [hbuf]; exact hlt) hcx,
          advance_noload hyt' hlt hc, rfl,
          hd, hbs, hgen, ?_, ?_, ⟨0, ?_, loadChain_zero _ _ _⟩, Or.inl rfl⟩
        · show x.spec + 1 = y.spec + 1
          omega
        · show y.spec + 1 ≤ y.buf.length
          omega
        · show some _ = some _
          have : ({ y with curr := some c, spec := y.spec + 1 } : RuneStream).lp = y.lp := rfl
          rw [this]
          have : ({ x with curr := some c, spec := x.spec + 1 } : RuneStream).lp = x.lp := rfl
          rw [this]
          rw [hlp]
      · have hle2 : y.buf.length ≤ y.spec := by omega
        have hlex : x.buf.length ≤ x.spec := by rw [hbuf, hspec]; exact hle2
        have hlsx : loadStep x.d x.bs x.lp = loadStep y.d y.bs y.lp := by
          rw [hd, hbs, hlp]
        cases hls : loadStep y.d y.bs y.lp with
        | none =>
          left
          exact ⟨advance_load_panic hxt hlex (hlsx.trans hls),
            advance_load_panic hyt' hle2 hls⟩
        | some L =>
          cases hLc : L.buf[y.spec]? with
          | none =>
            left
            refine ⟨advance_load_idx_panic hxt hlex (hlsx.trans hls) ?_,
              advance_load_idx_panic hyt' hle2 hls hLc⟩
            rw [hspec]
            exact hLc
          | some c =>
            right
            refine ⟨c.err.isNone, _, _,
              advance_load hxt hlex (hlsx.trans hls) (by rw [hspec]; exact hLc),
              advance_load hyt' hle2 hls hLc, rfl,
              hd, hbs, hgen, ?_, ?_, ⟨0, ?_, loadChain_zero _ _ _⟩, Or.inl rfl⟩
            · show x.spec + 1 = y.spec + 1
              omega
            · show y.spec + 1 ≤ L.buf.length
              have := get?_some_lt hLc
              omega
            · show some _ = some _
              rfl
    · obtain ⟨k', rfl⟩ : ∃ k', k = k' + 1 := ⟨k - 1, by omega⟩
      obtain ⟨a, b, h0, hstep0, hgrow0⟩ := hchain 0 (Nat.succ_pos k')
      have ha : a = y.lp := by
        simp only [loadIterP] at h0
        injection h0 with h0
        exact h0.symm
      subst ha
      have hiter' : loadIterP y.d y.bs b k' = some x.lp := by
        rw [← loadIterP_cons hstep0]
        exact hiter
      have hxbufp : x.lp.buf = b.buf ++ (loadIterP_buf hiter').choose :=
        (loadIterP_buf hiter').choose_spec
      have hxbuf : x.buf = b.buf ++ (loadIterP_buf hiter').choose := hxbufp
      have hgrow : y.buf.length < b.buf.length := hgrow0
      have hxlong : y.spec < x.buf.length := by
        rw [hxbuf, List.length_append]
        omega
      by_cases hlt : y.spec < y.buf.length
      · obtain ⟨us, hus⟩ := loadIterP_buf hiter
        have husx : x.buf = y.buf ++ us := hus
        obtain ⟨c, hc⟩ := get?_of_lt hlt
        have hcx : x.buf[x.spec]? = some c := by
          rw [husx, hspec, get?_append_left _ _ _ hlt]
          exact hc
        right
        refine ⟨c.err.isNone, _, _,
          advance_noload hxt (by rw [hspec]; exact hxlong) hcx,
          advance_noload hyt' hlt hc, rfl,
          hd, hbs, hgen, ?_, ?_, ⟨k' + 1, ?_, ?_⟩, Or.inl rfl⟩
        · show x.spec + 1 = y.spec + 1
          omega
        · show y.spec + 1 ≤ y.buf.length
          omega
        · exact hiter
        · exact hchain
      · have hle2 : y.buf.length ≤ y.spec := by omega
        obtain ⟨c, hcb⟩ := get?_of_lt (show y.spec < b.buf.length by omega)
        have hcx : x.buf[x.spec]? = some c := by
          rw [hxbuf, hspec, get?_append_left _ _ _ (by omega)]
          exact hcb
        right
        refine ⟨c.err.isNone, _, _,
          advance_noload hxt (by rw [hspec]; exact hxlong) hcx,
          advance_load hyt' hle2 hstep0 hcb, rfl,
          hd, hbs, hgen, ?_, ?_, ⟨k', ?_, loadChain_shift hchain hstep0⟩, Or.inl rfl⟩
        · show x.spec + 1 = y.spec + 1
          omega
        · show y.spec + 1 ≤ b.buf.length
          have := get?_some_lt hcb
          omega
        · exact hiter'

/-- Related streams produce identical advance/observation traces of every length. -/
theorem sim_trace {x y : RuneStream} (hsim : Sim x y) :
    ∀ K, traceA x K = traceA y K := by
  intro K
  induction K generalizing x y with
  | zero => rfl
  | succ K ih =>
    rcases sim_step hsim with ⟨hx, hy⟩ | ⟨r, x', y', hx, hy, hc, hsim'⟩
    · simp only [traceA, hx, hy]
    · simp only [traceA, hx, hy]
      rw [ih hsim']
      simp [obsOf, hc]

/-- A successful restore comes from a matching generation and only moves the speculative index and clears the current unit. -/
theorem restore_eq {s t : RuneStream} {sp : SavePoint} (h : s.Restore sp = some t) :
    sp.gen = s.gen ∧ t = { s with spec := sp.spec, curr := none } := by
  unfold RuneStream.Restore at h
  by_cases hg : sp.gen ≠ s.gen
  · rw [if_pos hg] at h
    exact Option.noConfusion h
  · rw [if_neg hg] at h
    injection h with h
    exact ⟨by omega, h.symm⟩

/-- A fresh stream starts with an empty log and speculative index 0. -/
theorem new_spec_buf {src : List ReadResult} {o : Options} {s : RuneStream}
    (h : RuneStream.New src o = some s) : s.spec = 0 ∧ s.buf = [] := by
  unfold RuneStream.New at h
  by_cases hb : o.BlockSize < 0
  · rw [if_pos hb] at h
    exact Option.noConfusion h
  · rw [if_neg hb] at h
    simp only at h
    by_cases hm : (o.OptDecoder.getD UTF8Decoder).Max < 1
    · rw [if_pos hm] at h
      exact Option.noConfusion h
    · rw [if_neg hm] at h
      injection h with h
      subst h
      exact ⟨rfl, rfl⟩

/-- A run of advances keeps the speculative index within the log. -/
theorem advanceN_spec_le {s t : RuneStream} {n : Nat} (h : advanceN s n = some t)
    (hs : s.spec ≤ s.buf.length) : t.spec ≤ t.buf.length := by
  induction n generalizing s with
  | zero =>
    simp only [advanceN] at h
    injection h with h
    subst h
    exact hs
  | succ n ih =>
    simp only [advanceN] at h
    cases hadv : s.Advance with
    | none => rw [hadv] at h; exact Option.noConfusion h
    | some p =>
      rw [hadv] at h
      cases p with
      | mk r u => exact ih h (advance_spec_le hadv hs)

/-- Claim C2 (amended): provided the current unit when the save point is taken is not a terminal-error unit, N advances, Save, M more advances and Restore reproduce exactly the subsequent sequence of Advance return values and (unit, size, position) observations of the run that stopped after the N advances. -/
theorem C2_save_restore_determinism :
    ∀ (src : List ReadResult) (o : Options) (s0 sN sM sR : RuneStream) (N M K : Nat),
      RuneStream.New src o = some s0 →
      advanceN s0 N = some sN →
      sN.currTerminal = false →
      advanceN sN M = some sM →
      sM.Restore sN.Save = some sR →
      traceA sR K = traceA sN K := by
  intro src o s0 sN sM sR N M K hnew hN hterm hM hres
  have h0 := new_spec_buf hnew
  have hNle : sN.spec ≤ sN.buf.length :=
    advanceN_spec_le hN (by rw [h0.1]; omega)
  obtain ⟨hdM, hbsM, hgenM, _, k, hiterM, hchainM⟩ := advanceN_run hM
  obtain ⟨hgsp, hReq⟩ := restore_eq hres
  subst hReq
  apply sim_trace
  refine ⟨?_, ?_, ?_, ?_, hNle, ⟨k, ?_, hchainM⟩, Or.inr ⟨rfl, hterm⟩⟩
  · show sM.d = sN.d
    exact hdM
  · show sM.bs = sN.bs
    exact hbsM
  · show sM.gen = sN.gen
    exact hgenM
  · show (sN.Save).spec = sN.spec
    rfl
  · show loadIterP sN.d sN.bs sN.lp k = some sM.lp
    exact hiterM

/-- Claim C2 as stated is false: over a source that reports error 7 and then recovers with one byte, one advance (hitting the terminal), Save at the terminal unit, zero further advances and Restore yield a next observation different from the run that simply stopped: the restored run re-reads the source and returns true, the plain run returns false (sticky).  This instantiates the claim with N = 1, M = 0. -/
theorem C2_counterexample :
    RuneStream.New c2src { BlockSize := 0, OptDecoder := none } = some c2s0 ∧
    advanceN c2s0 1 = some c2sN ∧
    advanceN c2sN 0 = some c2sN ∧
    c2sN.Restore c2sN.Save = some c2sR ∧
    traceA c2sR 1 ≠ traceA c2sN 1 :=
  ⟨rfl, rfl, rfl, rfl, by decide⟩

/-- Witness for C2 on a concrete stream: one advance over a one-byte source (not terminal), Save, one further advance, Restore; the next two observations equal those of the run that stopped after the first advance. -/
theorem C2_save_restore_determinism_witness :
    traceA w2sR 2 = traceA w2sN 2 :=
  C2_save_restore_determinism w2src { BlockSize := 0, OptDecoder := none }
    w2s0 w2sN w2sM w2sR 1 1 2 rfl rfl rfl rfl rfl
